import Mathlib

/-!
Verification development for `shuffle_mcq.py` (QuestionScrambler).

The core of the program is embedded shallowly:

* an input line is a `List Char` (the program receives `raw.splitlines()`);
* the three regexes `QUESTION_START_RE`, `CHOICE_RE`, `ANSWER_RE` become the
  matching functions `matchQStart`, `matchChoice`, `matchAnswer`;
* `parse_questions` becomes `parse_questions` (the scanning loop is written
  with an explicit fuel argument so that the definition is structurally
  recursive and executable; `parse_questions` supplies fuel `lines.length + 1`,
  which is proved sufficient, so the fuel-exhausted branch is unreachable);
* `random.Random` is modelled as a deterministic state machine `Rng` supplying
  one natural number per `_randbelow(n)` call (reduced mod `n`, matching the
  contract that `_randbelow(n)` returns a value in `[0, n)`), and CPython's
  `random.shuffle` (Fisher-Yates: `for i in reversed(range(1, len(x))):
  j = _randbelow(i+1); swap x[i] x[j]`) becomes `listShuffle`;
* `shuffle_questions` returns `Option` on its list result: the `next(...)`
  lookups and the `"ABCD"[correct_idx]` indexing in the source raise on
  failure, which is modelled by a `none` result;
* the formatters `format_combined` / `format_answers_only` build the same
  line list as the source and join with `'\n'`; `splitLines` models Python's
  `str.splitlines` for inputs whose only line-break character is `'\n'`.

Parse errors are modelled by their cause tag together with the 1-based start
line number of the offending block (the source also attaches a free-text
snippet, which carries no additional structure).
-/

/-- Characters matched by Python's `\s` (for `str` patterns) and stripped by
`str.strip()`: ASCII whitespace plus the Unicode whitespace characters. -/
def pySpace : List Char :=
  [' ', '\t', '\n', '\r', '\x0b', '\x0c',
   '\x1c', '\x1d', '\x1e', '\x1f', '\x85', '\xa0',
   ' ', ' ', ' ', ' ', ' ', ' ', ' ',
   ' ', ' ', ' ', ' ', ' ',
   ' ', ' ', ' ', ' ', '　']

def isPySpace (c : Char) : Bool := decide (c ∈ pySpace)

/-- A decoded text line, as produced by `str.splitlines`. -/
abbrev Line := List Char

/-- Models `line.strip() == ""`. -/
def isBlank (l : Line) : Bool := l.all isPySpace

/-- Leading-whitespace removal, as performed by a greedy `\s*` at the start of
a capture. -/
def dropWs (l : Line) : Line := l.dropWhile isPySpace

/-- `QUESTION_START_RE = re.compile(r"^\s*(\d+)\.\s*(.*)$")`; returns the text
captured by group 2. -/
def matchQStart (l : Line) : Option Line :=
  let r := dropWs l
  let ds := r.takeWhile Char.isDigit
  if ds = [] then none
  else
    match r.drop ds.length with
    | '.' :: rest => some (dropWs rest)
    | _ => none

/-- The fixed choice alphabet, in canonical order (the string `"ABCD"` of the
source). -/
def abcd : List Char := ['A', 'B', 'C', 'D']

/-- `CHOICE_RE = re.compile(r"^\s*([A-D])\.\s+(.*)$")`; returns the letter
(group 1) and the text captured by group 2. -/
def matchChoice (l : Line) : Option (Char × Line) :=
  match dropWs l with
  | c :: '.' :: rest =>
    if c ∈ abcd then
      match rest with
      | r0 :: _ => if isPySpace r0 then some (c, dropWs rest) else none
      | [] => none
    else none
  | _ => none

/-- `ANSWER_RE = re.compile(r"^\s*answer\s*:\s*([A-D])\s*$", re.IGNORECASE)`;
returns the letter captured by group 1 (possibly lower case, since the
pattern is case-insensitive). -/
def matchAnswer (l : Line) : Option Char :=
  match dropWs l with
  | a :: n :: s :: w :: e :: r :: rest =>
    if a.toLower = 'a' ∧ n.toLower = 'n' ∧ s.toLower = 's' ∧
       w.toLower = 'w' ∧ e.toLower = 'e' ∧ r.toLower = 'r' then
      match dropWs rest with
      | ':' :: rest2 =>
        match dropWs rest2 with
        | c :: rest3 => if c.toUpper ∈ abcd ∧ dropWs rest3 = [] then some c else none
        | [] => none
      | _ => none
    else none
  | _ => none

/-- Machine-readable cause of a `ParseError` raised by `parse_questions`, one
per `raise` site. -/
inductive Cause where
  | missingChoicesBeforeNext
  | missingStem
  | eofBeforeChoices
  | expectedChoiceLine
  | duplicateChoiceLetter
  | incompleteLetterSet
  | missingAnswerLine
  | expectedAnswerLine
deriving DecidableEq, Repr

/-- A `ParseError`: its cause together with the 1-based start line of the
malformed block (`start_line_no` in the source's messages). -/
structure PError where
  cause : Cause
  startLineNo : Nat
deriving DecidableEq, Repr

/-- The `Question` dataclass. -/
structure Question where
  stem_lines : List Line
  choices : List (Char × Line)
  answer_letter : Char
  start_line_no : Nat
deriving DecidableEq, Repr

/-- The `ShuffledQuestion` dataclass. -/
structure ShuffledQuestion where
  stem_lines : List Line
  shuffled_choices : List Line
  new_answer_letter : Char
deriving DecidableEq, Repr

/-- The two loops `while i < n and ... lines[i].strip() == "": i += 1` that
skip blank filler inside a block.  Returns the remaining lines and the number
of lines consumed. -/
def skipBlanks : List Line → List Line × Nat
  | [] => ([], 0)
  | l :: rest =>
    if isBlank l then
      let p := skipBlanks rest
      (p.1, p.2 + 1)
    else (l :: rest, 0)

/-- The stem-collection loop of `parse_questions` (lines 83-90 of the source):
keep appending lines to the stem until a choice line or end of input; a fresh
question-start line first is a hard error.  Returns the collected stem, the
remaining lines and the number of lines consumed. -/
def collectStem (sLn : Nat) : List Line → List Line → Except PError (List Line × List Line × Nat)
  | acc, [] => .ok (acc, [], 0)
  | acc, l :: rest =>
    if (matchChoice l).isSome then .ok (acc, l :: rest, 0)
    else if (matchQStart l).isSome then .error ⟨.missingChoicesBeforeNext, sLn⟩
    else (collectStem sLn (acc ++ [l]) rest).map fun (st, rem, k) => (st, rem, k + 1)

/-- The choice-collection loop of `parse_questions` (lines 107-125 of the
source): `while i < n and len(choices) < 4`, skipping blank lines, erroring on
a non-choice line or a duplicate letter.  Returns the collected choices, the
remaining lines and the number of lines consumed. -/
def collectChoices (sLn : Nat) : List (Char × Line) → List Line →
    Except PError (List (Char × Line) × List Line × Nat)
  | acc, [] => .ok (acc, [], 0)
  | acc, l :: rest =>
    if 4 ≤ acc.length then .ok (acc, l :: rest, 0)
    else if isBlank l then
      (collectChoices sLn acc rest).map fun (cs, rem, k) => (cs, rem, k + 1)
    else
      match matchChoice l with
      | none => .error ⟨.expectedChoiceLine, sLn⟩
      | some (c, t) =>
        if c ∈ acc.map Prod.fst then .error ⟨.duplicateChoiceLetter, sLn⟩
        else (collectChoices sLn (acc ++ [(c, t)]) rest).map fun (cs, rem, k) => (cs, rem, k + 1)

/-- The check `seen_letters != {"A", "B", "C", "D"}` (line 127): the set of
collected letters equals the full alphabet. -/
def letterSetOk (ls : List Char) : Bool :=
  'A' ∈ ls ∧ 'B' ∈ ls ∧ 'C' ∈ ls ∧ 'D' ∈ ls ∧ ls.all (· ∈ abcd)

/-- The body of `parse_questions` that validates one block, starting just
after its question-start line (source lines 74-157).  `first` is group 2 of
the start-line match; `sLn` is the 1-based start line number.  Returns the
parsed `Question`, the remaining lines and the number of lines consumed after
the start line. -/
def parseBlock (sLn : Nat) (first : Line) (rest : List Line) :
    Except PError (Question × List Line × Nat) :=
  let stem0 : List Line := if first = [] then [] else [first]
  let p1 := if first = [] then skipBlanks rest else (rest, 0)
  match collectStem sLn stem0 p1.1 with
  | .error e => .error e
  | .ok (stem, r2, k2) =>
    if stem = [] then .error ⟨.missingStem, sLn⟩
    else if r2 = [] then .error ⟨.eofBeforeChoices, sLn⟩
    else
      match collectChoices sLn [] r2 with
      | .error e => .error e
      | .ok (cs, r3, k3) =>
        if letterSetOk (cs.map Prod.fst) then
          let p4 := skipBlanks r3
          match p4.1 with
          | [] => .error ⟨.missingAnswerLine, sLn⟩
          | al :: r5 =>
            match matchAnswer al with
            | none => .error ⟨.expectedAnswerLine, sLn⟩
            | some c => .ok (⟨stem, cs, c.toUpper, sLn⟩, r5, p1.2 + k2 + k3 + p4.2 + 1)
        else .error ⟨.incompleteLetterSet, sLn⟩

/-- The outer scanning loop of `parse_questions` (source lines 65-159), with
explicit fuel.  `i` is the 0-based absolute index of the head of `ls`.  The
fuel-0 branch is unreachable whenever `ls.length < fuel` (see
`parseLoopF_fuel_irrel`). -/
def parseLoopF : Nat → List Line → Nat → Except PError (List Question × Nat)
  | 0, _, _ => .ok ([], 0)
  | _ + 1, [], _ => .ok ([], 0)
  | fu + 1, l :: rest, i =>
    match matchQStart l with
    | none => (parseLoopF fu rest (i + 1)).map fun (qs, d) => (qs, d + 1)
    | some first =>
      match parseBlock (i + 1) first rest with
      | .error e => .error e
      | .ok (q, rem, k) => (parseLoopF fu rem (i + 1 + k)).map fun (qs, d) => (q :: qs, d)

/-- `parse_questions(lines)`: returns the validated questions together with
the count of discarded non-question lines, or the first structural error. -/
def parse_questions (lines : List Line) : Except PError (List Question × Nat) :=
  parseLoopF (lines.length + 1) lines 0

/-- A deterministic pseudo-random source: a stream of naturals and a position.
Models a `random.Random` instance; each `_randbelow` call consumes one stream
value. -/
structure Rng where
  stream : Nat → Nat
  pos : Nat

/-- `Random._randbelow(n)`: a value in `[0, n)` (for `n > 0`), consuming the
generator state. -/
def randbelow (g : Rng) (n : Nat) : Nat × Rng :=
  (g.stream g.pos % n, ⟨g.stream, g.pos + 1⟩)

/-- Swap the elements at positions `i` and `j` (`x[i], x[j] = x[j], x[i]`);
returns the list unchanged if either index is out of range. -/
def listSwap (xs : List α) (i j : Nat) : List α :=
  match xs[i]?, xs[j]? with
  | some a, some b => (xs.set i b).set j a
  | _, _ => xs

/-- The Fisher-Yates loop of CPython's `random.shuffle`:
`for i in reversed(range(1, len(x))): j = _randbelow(i+1); swap x[i] x[j]`.
The `Nat` argument is the current value of `i`. -/
def fyAux (g : Rng) (xs : List α) : Nat → List α × Rng
  | 0 => (xs, g)
  | i + 1 =>
    let p := randbelow g (i + 2)
    fyAux p.2 (listSwap xs (i + 1) p.1) i

/-- `rng.shuffle(xs)` (functional: returns the shuffled list and the advanced
generator). -/
def listShuffle (g : Rng) (xs : List α) : List α × Rng :=
  fyAux g xs (xs.length - 1)

/-- The body of `shuffle_questions` for one question (source lines 166-179).
A `none` first component models the `StopIteration` from a failed `next(...)`
lookup or the `IndexError` from `"ABCD"[correct_idx]`. -/
def shuffleOne (g : Rng) (q : Question) : Option ShuffledQuestion × Rng :=
  let p := listShuffle g q.choices
  match q.choices.find? (fun c => c.1 == q.answer_letter) with
  | none => (none, p.2)
  | some cc =>
    match p.1.findIdx? (fun c => c == cc) with
    | none => (none, p.2)
    | some idx =>
      match abcd[idx]? with
      | none => (none, p.2)
      | some L => (some ⟨q.stem_lines, p.1.map Prod.snd, L⟩, p.2)

/-- `shuffle_questions(questions, rng)`: shuffles each question's choices in
input order, threading the generator. -/
def shuffle_questions : List Question → Rng → Option (List ShuffledQuestion) × Rng
  | [], g => (some [], g)
  | q :: rest, g =>
    match shuffleOne g q with
    | (none, g') => (none, g')
    | (some s, g') =>
      match shuffle_questions rest g' with
      | (none, g'') => (none, g'')
      | (some ss, g'') => (some (s :: ss), g'')

/-- Decimal digit character (`Nat.digitChar` restricted to `< 10` inputs). -/
def decDigit (n : Nat) : Char := Nat.digitChar n

/-- Auxiliary decimal printer with fuel (structural, executable). -/
def natToLineAux : Nat → Nat → List Char → List Char
  | 0, _, acc => acc
  | f + 1, n, acc =>
    if n < 10 then decDigit n :: acc
    else natToLineAux f (n / 10) (decDigit (n % 10) :: acc)

/-- The decimal rendering of `n`, as produced by `f"{n}. ..."`. -/
def natToLine (n : Nat) : List Char := natToLineAux (n + 1) n []

/-- `"\n".join(out)`. -/
def joinLines (ls : List Line) : List Char := List.intercalate ['\n'] ls

/-- The rendered choice lines `f"{letter}. {text}"` for
`zip("ABCD", q.shuffled_choices)`. -/
def choiceLines (s : ShuffledQuestion) : List Line :=
  (abcd.zip s.shuffled_choices).map fun (c, t) => c :: '.' :: ' ' :: t

/-- The rendered line `f"Answer: {q.new_answer_letter}"`. -/
def answerLine (s : ShuffledQuestion) : Line :=
  ['A', 'n', 's', 'w', 'e', 'r', ':', ' '] ++ [s.new_answer_letter]

/-- The rendered line `f"{i}. {q.stem_lines[0]}"`. -/
def headerLine (n : Nat) (s : ShuffledQuestion) : Line :=
  natToLine n ++ '.' :: ' ' :: s.stem_lines.headI

/-- The lines appended to `out` by `format_combined` for one question. -/
def blockOut (n : Nat) (s : ShuffledQuestion) : List Line :=
  headerLine n s :: s.stem_lines.tail ++ choiceLines s ++ [[], answerLine s, []]

/-- The full `out` list built by `format_combined`, numbering from `n`. -/
def combinedOut : Nat → List ShuffledQuestion → List Line
  | _, [] => []
  | n, s :: rest => blockOut n s ++ combinedOut (n + 1) rest

/-- `format_combined(questions)`. -/
def format_combined (qs : List ShuffledQuestion) : List Char :=
  joinLines (combinedOut 1 qs)

/-- The `out` list built by `format_answers_only`, numbering from `n`. -/
def answersOut : Nat → List ShuffledQuestion → List Line
  | _, [] => []
  | n, s :: rest => (natToLine n ++ '.' :: ' ' :: [s.new_answer_letter]) :: answersOut (n + 1) rest

/-- `format_answers_only(questions)`:
`"\n".join(out) + ("\n" if out else "")`. -/
def format_answers_only (qs : List ShuffledQuestion) : List Char :=
  joinLines (answersOut 1 qs) ++ (if answersOut 1 qs = [] then [] else ['\n'])

/-- Accumulator version of `splitLines`. -/
def splitLinesAux : Line → List Char → List Line
  | cur, [] => if cur = [] then [] else [cur]
  | cur, c :: rest =>
    if c = '\n' then cur :: splitLinesAux [] rest
    else splitLinesAux (cur ++ [c]) rest

/-- `str.splitlines()` for text whose only line-break character is `'\n'`
(the rendered output of the formatters, given break-free input lines). -/
def splitLines (s : List Char) : List Line := splitLinesAux [] s

/-- The combined-output pipeline of `process_file` (source lines 230-254,
I/O stripped): parse, shuffle with the given generator, render.  The inner
`Option` models the unreachable `StopIteration` of the shuffle step. -/
def process_combined (lines : List Line) (g : Rng) :
    Except PError (Option (List Char) × Nat) :=
  match parse_questions lines with
  | .error e => .error e
  | .ok (qs, d) =>
    match shuffle_questions qs g with
    | (some sh, _) => .ok (some (format_combined sh), d)
    | (none, _) => .ok (none, d)

/-- The canonical index of a letter in the fixed alphabet (A=0, B=1, C=2,
D=3). -/
def letterIndex (c : Char) : Nat := abcd.indexOf c

/-- The characters at which `str.splitlines` breaks a line. -/
def lineBreaks : List Char :=
  ['\n', '\r', '\x0b', '\x0c', '\x1c', '\x1d', '\x1e', '\x85', ' ', ' ']

/-- A line free of line-break characters, as every line produced by
`str.splitlines` is. -/
def Clean (l : Line) : Prop := ∀ c ∈ l, c ∉ lineBreaks

/-- The parser's postconditions on a question, as used by the shuffle step:
the choice letters are exactly the fixed alphabet (in some order) and the
answer letter belongs to the alphabet. -/
def WFQ (q : Question) : Prop :=
  List.Perm (q.choices.map Prod.fst) abcd ∧ q.answer_letter ∈ abcd

/-- Per-question relation established by `shuffle_questions`: stems are kept,
the shuffled texts are a permutation of the original texts, the remapped
letter is in the alphabet, and the text at the remapped letter's canonical
index is the originally-correct text. -/
def ShufRel (q : Question) (s : ShuffledQuestion) : Prop :=
  s.stem_lines = q.stem_lines ∧
  List.Perm s.shuffled_choices (q.choices.map Prod.snd) ∧
  s.new_answer_letter ∈ abcd ∧
  ∀ t, (q.answer_letter, t) ∈ q.choices →
    s.shuffled_choices[letterIndex s.new_answer_letter]? = some t

/-- Structural facts about a parsed question needed to re-parse its rendered
form: the stem is non-empty, its first line has a non-whitespace character,
the later stem lines match neither the choice nor the question-start pattern,
every stem line is a suffix of an input line, and every choice text has no
leading whitespace and is a suffix of an input line. -/
def QPost (ls : List Line) (q : Question) : Prop :=
  WFQ q ∧
  (∃ h t, q.stem_lines = h :: t ∧ h.any (fun c => !isPySpace c) = true ∧
    (∀ l ∈ t, matchChoice l = none ∧ matchQStart l = none)) ∧
  (∀ sl ∈ q.stem_lines, ∃ l ∈ ls, sl.IsSuffix l) ∧
  (∀ p ∈ q.choices, dropWs p.2 = p.2 ∧ ∃ l ∈ ls, p.2.IsSuffix l)

/-- What a `ShuffledQuestion` must satisfy for its rendered block to re-parse
cleanly (established for shuffles of parsed questions). -/
def SInv (s : ShuffledQuestion) : Prop :=
  (∃ h t, s.stem_lines = h :: t ∧ h.any (fun c => !isPySpace c) = true ∧
    Clean h ∧
    (∀ l ∈ t, matchChoice l = none ∧ matchQStart l = none ∧ Clean l)) ∧
  s.shuffled_choices.length = 4 ∧
  (∀ t ∈ s.shuffled_choices, dropWs t = t ∧ Clean t) ∧
  s.new_answer_letter ∈ abcd

/-- The question produced by re-parsing the rendered block of `s` whose start
line is 1-based line `sLn`: the first stem line loses its leading whitespace,
the choices are the shuffled texts labelled `A`-`D` in order, and the answer
letter is the remapped letter. -/
def reparsedQ (sLn : Nat) (s : ShuffledQuestion) : Question :=
  ⟨dropWs s.stem_lines.headI :: s.stem_lines.tail,
   abcd.zip s.shuffled_choices, s.new_answer_letter, sLn⟩

/-- The lines of a rendered block without its trailing blank line
(`blockOut n s = blockCore n s ++ [[]]`). -/
def blockCore (n : Nat) (s : ShuffledQuestion) : List Line :=
  headerLine n s :: s.stem_lines.tail ++ choiceLines s ++ [[], answerLine s]

/-- The answers-only lines as the specification words them: for the `k`-th
question (0-based `k`), one line `"{k+1}. {new_answer_letter}"`. -/
def specAnswerList (qs : List ShuffledQuestion) : List Line :=
  ((List.range qs.length).zip qs).map fun p =>
    natToLine (p.1 + 1) ++ '.' :: ' ' :: [p.2.new_answer_letter]

/-- The answers-only output as the specification words it: the lines joined by
newlines, with a trailing newline exactly when at least one question exists. -/
def specAnswersOnly (qs : List ShuffledQuestion) : List Char :=
  joinLines (specAnswerList qs) ++ (if qs = [] then [] else ['\n'])

/-- A concrete generator whose stream is constantly zero. -/
def zeroRng : Rng := ⟨fun _ => 0, 0⟩

/-- A string literal as a line. -/
def ofStr (s : String) : Line := s.data

/-- A concrete input whose single question has a bare start line `"1."` and an
indented stem line collected verbatim. -/
def cx2lines : List Line :=
  [ofStr "1.", ofStr "  Why so", ofStr "A. a", ofStr "B. b", ofStr "C. c", ofStr "D. d",
   ofStr "Answer: A"]

/-- The questions parsed from `cx2lines`. -/
def cx2qs : List Question := ((parse_questions cx2lines).toOption.map Prod.fst).getD []

/-- The shuffle of `cx2qs` under the constantly-zero generator. -/
def cx2shs : List ShuffledQuestion := ((shuffle_questions cx2qs zeroRng).1).getD []

/-- The generator state after shuffling `cx2qs`. -/
def cx2rng : Rng := (shuffle_questions cx2qs zeroRng).2

/-- A concrete single-question block (stem `"Q one"`, answer `B`). -/
def cx4a : List Line :=
  [ofStr "1. Q one", ofStr "A. aa", ofStr "B. bb", ofStr "C. cc", ofStr "D. dd",
   ofStr "Answer: B"]

/-- A concrete single-question block (stem `"Q two"`, answer `C`). -/
def cx4b : List Line :=
  [ofStr "1. Q two", ofStr "A. ee", ofStr "B. ff", ofStr "C. gg", ofStr "D. hh",
   ofStr "Answer: C"]

/-- The three-choice input of the specification's error test case. -/
def cx5lines : List Line :=
  [ofStr "1. Q", ofStr "A. x", ofStr "B. y", ofStr "C. z", ofStr "Answer: A"]

/-- A concrete well-formed single-question input. -/
def cx10lines : List Line :=
  [ofStr "1. Stem here", ofStr "A. p", ofStr "B. q", ofStr "C. r", ofStr "D. s",
   ofStr "Answer: D"]

/-- The questions re-parsed from the rendered output of `cx2shs`. -/
def cx2reQ : List Question :=
  ((parse_questions (splitLines (format_combined cx2shs))).toOption.map Prod.fst).getD []

/-- The questions parsed from `cx4a`. -/
def cx4aQ : List Question := ((parse_questions cx4a).toOption.map Prod.fst).getD []

/-- The questions parsed from `cx4b`. -/
def cx4bQ : List Question := ((parse_questions cx4b).toOption.map Prod.fst).getD []

/-- The questions parsed from `cx4a`, a blank line, then `cx4b`. -/
def cx4abQ : List Question :=
  ((parse_questions (cx4a ++ [] :: cx4b)).toOption.map Prod.fst).getD []

/-- The questions parsed from `cx10lines`. -/
def cx10Q : List Question := ((parse_questions cx10lines).toOption.map Prod.fst).getD []

/-- A concrete well-formed question (answer `B`). -/
def cw1 : Question :=
  ⟨[ofStr "Pick one"], [('A', ofStr "w"), ('B', ofStr "x"), ('C', ofStr "y"), ('D', ofStr "z")],
   'B', 1⟩

/-- A concrete well-formed question (answer `D`). -/
def cw6 : Question :=
  ⟨[ofStr "Total"], [('A', ofStr "k"), ('B', ofStr "l"), ('C', ofStr "m"), ('D', ofStr "n")],
   'D', 3⟩

/-- Four well-formed choice lines. -/
def cw9ls : List Line := [ofStr "A. a", ofStr "B. b", ofStr "C. c", ofStr "D. d"]

/-- The choices collected from `cw9ls`. -/
def cw9cs : List (Char × Line) :=
  [('A', ofStr "a"), ('B', ofStr "b"), ('C', ofStr "c"), ('D', ofStr "d")]

instance (l : Line) : Decidable (Clean l) :=
  decidable_of_iff (∀ c ∈ l, c ∉ lineBreaks) Iff.rfl

/-! ### Whitespace and matcher basics -/

theorem isPySpace_iff {c : Char} : isPySpace c = true ↔ c ∈ pySpace := by
  simp [isPySpace]

theorem not_isPySpace_of_isDigit {c : Char} (h : c.isDigit = true) :
    isPySpace c = false := by
  rw [Bool.eq_false_iff]
  intro hc
  have hm := isPySpace_iff.mp hc
  have : ∀ x ∈ pySpace, x.isDigit = false := by decide
  have := this c hm
  simp [h] at this

theorem not_isPySpace_of_mem_abcd {c : Char} (h : c ∈ abcd) : isPySpace c = false := by
  fin_cases h <;> decide

theorem dropWs_nil : dropWs [] = [] := rfl

theorem dropWs_cons_of_ws {c : Char} {l : Line} (h : isPySpace c = true) :
    dropWs (c :: l) = dropWs l := by
  simp [dropWs, List.dropWhile_cons, h]

theorem dropWs_cons_of_not_ws {c : Char} {l : Line} (h : isPySpace c = false) :
    dropWs (c :: l) = c :: l := by
  simp [dropWs, List.dropWhile_cons, h]

theorem dropWs_idem (l : Line) : dropWs (dropWs l) = dropWs l := by
  induction l with
  | nil => rfl
  | cons c t ih =>
    by_cases h : isPySpace c = true
    · rw [dropWs_cons_of_ws h, ih]
    · rw [Bool.not_eq_true] at h
      rw [dropWs_cons_of_not_ws h, dropWs_cons_of_not_ws h]

theorem dropWs_suffix (l : Line) : (dropWs l).IsSuffix l :=
  List.dropWhile_suffix _

theorem dropWs_eq_nil_of_isBlank {l : Line} (h : isBlank l = true) : dropWs l = [] := by
  simp only [isBlank, List.all_eq_true] at h
  simp [dropWs, List.dropWhile_eq_nil_iff]
  exact fun c hc => h c hc

theorem not_isBlank_iff {l : Line} :
    isBlank l = false ↔ ∃ c ∈ l, isPySpace c = false := by
  simp [isBlank, List.all_eq_true]

theorem any_nonWs_of_not_isBlank {l : Line} (h : isBlank l = false) :
    l.any (fun c => !isPySpace c) = true := by
  rcases not_isBlank_iff.mp h with ⟨c, hc, hws⟩
  simp [List.any_eq_true]
  exact ⟨c, hc, hws⟩

theorem isBlank_nil : isBlank [] = true := rfl

theorem isBlank_cons_of_not_ws {c : Char} {l : Line} (h : isPySpace c = false) :
    isBlank (c :: l) = false := by
  simp [isBlank, h]

theorem dropWs_ne_nil_of_any {l : Line} (h : l.any (fun c => !isPySpace c) = true) :
    dropWs l ≠ [] := by
  intro hnil
  simp only [dropWs, List.dropWhile_eq_nil_iff] at hnil
  simp only [List.any_eq_true] at h
  rcases h with ⟨c, hc, hws⟩
  have := hnil c hc
  simp_all

theorem matchQStart_eq_none_of_isBlank {l : Line} (h : isBlank l = true) :
    matchQStart l = none := by
  simp [matchQStart, dropWs_eq_nil_of_isBlank h]

theorem matchChoice_eq_none_of_isBlank {l : Line} (h : isBlank l = true) :
    matchChoice l = none := by
  simp [matchChoice, dropWs_eq_nil_of_isBlank h]

/-- A run of whitespace is dropped in front of a non-whitespace head. -/
theorem dropWs_eq_self_of_head {c : Char} {l : Line} (h : isPySpace c = false) :
    dropWs (c :: l) = c :: l := dropWs_cons_of_not_ws h

theorem takeWhile_append_of_all {p : α → Bool} :
    ∀ (a : List α) (b : α) (t : List α), (∀ x ∈ a, p x = true) → p b = false →
      (a ++ b :: t).takeWhile p = a
  | [], b, t, _, hb => by simp [List.takeWhile_cons, hb]
  | x :: a, b, t, ha, hb => by
    have hx : p x = true := ha x (List.mem_cons_self x a)
    simp only [List.cons_append, List.takeWhile_cons, hx, if_true]
    rw [takeWhile_append_of_all a b t (fun y hy => ha y (List.mem_cons_of_mem x hy)) hb]

theorem dropWs_append_of_head {a t : List Char}
    (ha : a ≠ []) (h : ∀ x ∈ a, isPySpace x = false) :
    dropWs (a ++ t) = a ++ t := by
  cases a with
  | nil => exact absurd rfl ha
  | cons x a =>
    have : isPySpace x = false := h x (List.mem_cons_self x a)
    simp [dropWs, List.dropWhile_cons, this]

/-- `matchQStart` on a rendered header line `digits ++ ". " ++ stem`. -/
theorem matchQStart_render {ds : List Char} {h : Line}
    (hne : ds ≠ []) (hds : ∀ x ∈ ds, x.isDigit = true) :
    matchQStart (ds ++ '.' :: ' ' :: h) = some (dropWs h) := by
  have hws : ∀ x ∈ ds, isPySpace x = false := fun x hx => not_isPySpace_of_isDigit (hds x hx)
  have h1 : dropWs (ds ++ '.' :: ' ' :: h) = ds ++ '.' :: ' ' :: h :=
    dropWs_append_of_head hne hws
  have h2 : (ds ++ '.' :: ' ' :: h).takeWhile Char.isDigit = ds :=
    takeWhile_append_of_all ds '.' (' ' :: h) hds (by decide)
  simp only [matchQStart, h1, h2]
  rw [if_neg hne]
  rw [List.drop_left]
  have : dropWs (' ' :: h) = dropWs h := dropWs_cons_of_ws (by decide)
  simp [this]

/-- `matchChoice` on a rendered choice line `letter ++ ". " ++ text` whose
text has no leading whitespace. -/
theorem matchChoice_render {c : Char} {t : Line} (hc : c ∈ abcd) (ht : dropWs t = t) :
    matchChoice (c :: '.' :: ' ' :: t) = some (c, t) := by
  have hcw : isPySpace c = false := not_isPySpace_of_mem_abcd hc
  have h1 : dropWs (c :: '.' :: ' ' :: t) = c :: '.' :: ' ' :: t := dropWs_cons_of_not_ws hcw
  have h2 : dropWs (' ' :: t) = dropWs t := dropWs_cons_of_ws (by decide)
  have h3 : isPySpace ' ' = true := by decide
  simp [matchChoice, h1, hc, h2, h3, ht]

/-- What a successful `CHOICE_RE` match guarantees about its captures. -/
theorem matchChoice_some_spec {l : Line} {c : Char} {t : Line}
    (h : matchChoice l = some (c, t)) :
    c ∈ abcd ∧ dropWs t = t ∧ t.IsSuffix l := by
  unfold matchChoice at h
  split at h
  · rename_i x rest heq
    split at h
    · rename_i hx
      split at h
      · split at h
        · simp only [Option.some.injEq, Prod.mk.injEq] at h
          obtain ⟨rfl, rfl⟩ := h
          exact ⟨hx, dropWs_idem _,
            (dropWs_suffix _).trans
              (List.IsSuffix.trans ⟨[x, '.'], heq.symm⟩ (dropWs_suffix _))⟩
        · exact absurd h (by simp)
      · exact absurd h (by simp)
    · exact absurd h (by simp)
  · exact absurd h (by simp)

/-! ### Answer-line and digit-rendering lemmas -/

theorem matchAnswer_render : ∀ c ∈ abcd,
    matchAnswer (['A', 'n', 's', 'w', 'e', 'r', ':', ' '] ++ [c]) = some c ∧
      c.toUpper = c := by decide

theorem matchAnswer_some_upper {l : Line} {c : Char} (h : matchAnswer l = some c) :
    c.toUpper ∈ abcd := by
  unfold matchAnswer at h
  split at h
  · split at h
    · split at h
      · split at h
        · split at h
          · rename_i hcond
            simp only [Option.some.injEq] at h
            subst h
            exact hcond.1
          · exact absurd h (by simp)
        · exact absurd h (by simp)
      · exact absurd h (by simp)
    · exact absurd h (by simp)
  · exact absurd h (by simp)

theorem decDigit_isDigit {n : Nat} (h : n < 10) : (decDigit n).isDigit = true := by
  interval_cases n <;> decide

theorem natToLineAux_spec :
    ∀ f n acc, n < f →
      ∃ d ds, natToLineAux f n acc = d :: ds ++ acc ∧ ∀ x ∈ d :: ds, x.isDigit = true := by
  intro f
  induction f with
  | zero => intro n acc h; omega
  | succ f ih =>
    intro n acc h
    by_cases h10 : n < 10
    · refine ⟨decDigit n, [], ?_, ?_⟩
      · simp [natToLineAux, h10]
      · intro x hx
        simp only [List.mem_singleton] at hx
        subst hx
        exact decDigit_isDigit h10
    · have hd : n / 10 < f := by
        have h1 : n / 10 < n := Nat.div_lt_self (by omega) (by omega)
        omega
      obtain ⟨d, ds, heq, hdig⟩ := ih (n / 10) (decDigit (n % 10) :: acc) hd
      refine ⟨d, ds ++ [decDigit (n % 10)], ?_, ?_⟩
      · rw [natToLineAux, if_neg h10, heq]
        simp
      · intro x hx
        rcases List.mem_cons.mp hx with rfl | hx2
        · exact hdig _ (List.mem_cons_self _ _)
        · rcases List.mem_append.mp hx2 with h3 | h3
          · exact hdig _ (List.mem_cons_of_mem _ h3)
          · simp only [List.mem_singleton] at h3
            subst h3
            exact decDigit_isDigit (Nat.mod_lt _ (by omega))

theorem natToLine_spec (n : Nat) :
    ∃ d ds, natToLine n = d :: ds ∧ ∀ x ∈ d :: ds, x.isDigit = true := by
  obtain ⟨d, ds, heq, hdig⟩ := natToLineAux_spec (n + 1) n [] (by omega)
  refine ⟨d, ds, ?_, hdig⟩
  simpa using heq

theorem natToLine_ne_nil (n : Nat) : natToLine n ≠ [] := by
  obtain ⟨d, ds, heq, _⟩ := natToLine_spec n
  simp [heq]

theorem natToLine_all_digits (n : Nat) : ∀ x ∈ natToLine n, x.isDigit = true := by
  obtain ⟨d, ds, heq, hdig⟩ := natToLine_spec n
  rw [heq]
  exact hdig

/-! ### Permutation facts about the Fisher-Yates shuffle -/

theorem cons_set_perm :
    ∀ (t : List α) (k : Nat) (hk : k < t.length) (x : α),
      List.Perm (t.get ⟨k, hk⟩ :: t.set k x) (x :: t) := by
  intro t
  induction t with
  | nil => intro k hk x; simp at hk
  | cons a t' ih =>
    intro k hk x
    cases k with
    | zero => simpa using List.Perm.swap x a t'
    | succ k =>
      have hk' : k < t'.length := by simpa using hk
      have e1 : (a :: t').get ⟨k + 1, hk⟩ :: (a :: t').set (k + 1) x
          = t'.get ⟨k, hk'⟩ :: a :: t'.set k x := by simp
      rw [e1]
      exact ((List.Perm.swap a (t'.get ⟨k, hk'⟩) (t'.set k x)).trans
        ((ih k hk' x).cons a)).trans (List.Perm.swap x a t')

theorem set_set_swap_perm :
    ∀ (xs : List α) (i j : Nat), i ≤ j →
      ∀ (hi : i < xs.length) (hj : j < xs.length),
        List.Perm ((xs.set i (xs.get ⟨j, hj⟩)).set j (xs.get ⟨i, hi⟩)) xs := by
  intro xs
  induction xs with
  | nil => intro i j _ hi _; simp at hi
  | cons a t ih =>
    intro i j hij hi hj
    cases i with
    | zero =>
      cases j with
      | zero =>
        have e : ((a :: t).set 0 ((a :: t).get ⟨0, hj⟩)).set 0 ((a :: t).get ⟨0, hi⟩)
            = a :: t := by simp
        rw [e]
      | succ k =>
        have hk : k < t.length := by simpa using hj
        have e : ((a :: t).set 0 ((a :: t).get ⟨k + 1, hj⟩)).set (k + 1) ((a :: t).get ⟨0, hi⟩)
            = t.get ⟨k, hk⟩ :: t.set k a := by simp
        rw [e]
        exact cons_set_perm t k hk a
    | succ m =>
      cases j with
      | zero => omega
      | succ k =>
        have hm : m < t.length := by simpa using hi
        have hk : k < t.length := by simpa using hj
        have e : ((a :: t).set (m + 1) ((a :: t).get ⟨k + 1, hj⟩)).set (k + 1)
              ((a :: t).get ⟨m + 1, hi⟩)
            = a :: ((t.set m (t.get ⟨k, hk⟩)).set k (t.get ⟨m, hm⟩)) := by simp
        rw [e]
        exact (ih m k (by omega) hm hk).cons a

theorem listSwap_perm (xs : List α) (i j : Nat) : List.Perm (listSwap xs i j) xs := by
  unfold listSwap
  split
  · rename_i a b ha hb
    have hi : i < xs.length := by
      rcases List.getElem?_eq_some.mp ha with ⟨h, _⟩
      exact h
    have hj : j < xs.length := by
      rcases List.getElem?_eq_some.mp hb with ⟨h, _⟩
      exact h
    have hae : a = xs.get ⟨i, hi⟩ := by
      rcases List.getElem?_eq_some.mp ha with ⟨h, he⟩
      simp [← he]
    have hbe : b = xs.get ⟨j, hj⟩ := by
      rcases List.getElem?_eq_some.mp hb with ⟨h, he⟩
      simp [← he]
    subst hae hbe
    by_cases hij : i ≤ j
    · exact set_set_swap_perm xs i j hij hi hj
    · rw [List.set_comm _ _ _ (by omega)]
      exact set_set_swap_perm xs j i (by omega) hj hi
  · exact List.Perm.refl xs

theorem fyAux_perm : ∀ (i : Nat) (g : Rng) (xs : List α), List.Perm (fyAux g xs i).1 xs := by
  intro i
  induction i with
  | zero => intro g xs; exact List.Perm.refl xs
  | succ i ih =>
    intro g xs
    unfold fyAux
    exact (ih _ _).trans (listSwap_perm _ _ _)

theorem listShuffle_perm (g : Rng) (xs : List α) : List.Perm (listShuffle g xs).1 xs :=
  fyAux_perm _ _ _

/-! ### The shuffle step -/

theorem abcd_nodup : abcd.Nodup := by decide

theorem letterIndex_abcd {idx : Nat} (h : idx < 4) :
    ∃ L, abcd[idx]? = some L ∧ L ∈ abcd ∧ letterIndex L = idx := by
  interval_cases idx <;> exact ⟨_, rfl, by decide, by decide⟩

theorem shuffleOne_spec (g : Rng) (q : Question) (hq : WFQ q) :
    ∃ s, shuffleOne g q = (some s, (listShuffle g q.choices).2) ∧ ShufRel q s := by
  obtain ⟨hperm, hans⟩ := hq
  have hshp : List.Perm (listShuffle g q.choices).1 q.choices := listShuffle_perm g q.choices
  have hex : ∃ x ∈ q.choices, (x.1 == q.answer_letter) = true := by
    have hmem : q.answer_letter ∈ q.choices.map Prod.fst := hperm.mem_iff.mpr hans
    rcases List.mem_map.mp hmem with ⟨c, hc, hceq⟩
    exact ⟨c, hc, by simp [hceq]⟩
  have hfind : (q.choices.find? (fun c => c.1 == q.answer_letter)).isSome :=
    List.find?_isSome.mpr hex
  rcases hcc : q.choices.find? (fun c => c.1 == q.answer_letter) with _ | cc
  · rw [hcc] at hfind
    simp at hfind
  have hccmem : cc ∈ q.choices := List.mem_of_find?_eq_some hcc
  have hccfst : cc.1 = q.answer_letter := by
    have h1 := List.find?_some hcc
    exact eq_of_beq h1
  have hccsh : cc ∈ (listShuffle g q.choices).1 := hshp.mem_iff.mpr hccmem
  have hidxS : ((listShuffle g q.choices).1.findIdx? (fun c => c == cc)).isSome := by
    rw [List.findIdx?_isSome, List.any_eq_true]
    exact ⟨cc, hccsh, by simp⟩
  rcases hix : (listShuffle g q.choices).1.findIdx? (fun c => c == cc) with _ | idx
  · rw [hix] at hidxS
    simp at hidxS
  have hidxspec := List.findIdx?_eq_some_iff_findIdx_eq.mp hix
  have hchl : q.choices.length = 4 := by
    have h2 : (q.choices.map Prod.fst).length = abcd.length := hperm.length_eq
    simpa using h2
  have hshlen : (listShuffle g q.choices).1.length = 4 := by rw [hshp.length_eq, hchl]
  have hlt : idx < (listShuffle g q.choices).1.length := hidxspec.1
  have hidx4 : idx < 4 := by
    rw [← hshlen]
    exact hlt
  rcases hy : (listShuffle g q.choices).1[idx]? with _ | y
  · rw [List.getElem?_eq_none_iff] at hy
    omega
  have hw : (listShuffle g q.choices).1[(listShuffle g q.choices).1.findIdx
      (fun c => c == cc)]? = some y := by
    rw [hidxspec.2]
    exact hy
  have hp := List.findIdx_of_getElem?_eq_some hw
  have hycc : y = cc := eq_of_beq hp
  rw [hycc] at hy
  obtain ⟨L, hL, hLmem, hLidx⟩ := letterIndex_abcd hidx4
  refine ⟨⟨q.stem_lines, (listShuffle g q.choices).1.map Prod.snd, L⟩, ?_, ?_⟩
  · simp only [shuffleOne, hcc, hix, hL]
  · refine ⟨rfl, hshp.map Prod.snd, hLmem, ?_⟩
    intro t ht
    have hnodup : (q.choices.map Prod.fst).Nodup := hperm.nodup_iff.mpr abcd_nodup
    have hinj := List.inj_on_of_nodup_map hnodup
    have hcceq : cc = (q.answer_letter, t) := hinj hccmem ht hccfst
    simp only [hLidx, List.getElem?_map, hy, hcceq]
    rfl

theorem shuffle_questions_spec :
    ∀ (qs : List Question) (g : Rng), (∀ q ∈ qs, WFQ q) →
      ∃ shs g', shuffle_questions qs g = (some shs, g') ∧ List.Forall₂ ShufRel qs shs := by
  intro qs
  induction qs with
  | nil => exact fun g _ => ⟨[], g, rfl, List.Forall₂.nil⟩
  | cons q rest ih =>
    intro g hwf
    obtain ⟨s, heq, hrel⟩ := shuffleOne_spec g q (hwf q (List.mem_cons_self q rest))
    obtain ⟨shs, g', heq2, hrel2⟩ :=
      ih (listShuffle g q.choices).2 (fun p hp => hwf p (List.mem_cons_of_mem q hp))
    refine ⟨s :: shs, g', ?_, List.Forall₂.cons hrel hrel2⟩
    simp [shuffle_questions, heq, heq2]

/-! ### The blank-skipping and collection loops -/

theorem skipBlanks_eq_drop :
    ∀ ls : List Line, (skipBlanks ls).1 = ls.drop (skipBlanks ls).2 ∧
      (skipBlanks ls).2 ≤ ls.length := by
  intro ls
  induction ls with
  | nil => simp [skipBlanks]
  | cons l rest ih =>
    by_cases hb : isBlank l = true
    · simp only [skipBlanks, hb, if_true]
      exact ⟨by simpa using ih.1, by simpa using ih.2⟩
    · simp [skipBlanks, hb]

theorem skipBlanks_head :
    ∀ ls : List Line, (skipBlanks ls).1 = [] ∨
      ∃ h t, (skipBlanks ls).1 = h :: t ∧ isBlank h = false := by
  intro ls
  induction ls with
  | nil => exact Or.inl rfl
  | cons l rest ih =>
    by_cases hb : isBlank l = true
    · simpa [skipBlanks, hb] using ih
    · right
      exact ⟨l, rest, by simp [skipBlanks, hb], by simpa using hb⟩

theorem skipBlanks_ext {ext : List Line} :
    ∀ (ls : List Line) (h : Line) (t : List Line), (skipBlanks ls).1 = h :: t →
      skipBlanks (ls ++ ext) = (h :: t ++ ext, (skipBlanks ls).2) := by
  intro ls
  induction ls with
  | nil => intro h t hc; simp [skipBlanks] at hc
  | cons l rest ih =>
    intro h t hc
    by_cases hb : isBlank l = true
    · simp only [skipBlanks, hb, if_true] at hc ⊢
      simp only [List.cons_append, skipBlanks, hb, if_true]
      have hih := ih h t hc
      simp [hih]
    · simp only [skipBlanks, hb, if_false] at hc ⊢
      simp only [Bool.false_eq_true, if_false] at hc ⊢
      injection hc with h1 h2
      subst h1
      subst h2
      simp [List.cons_append, skipBlanks, hb]

theorem collectStem_ok {sLn : Nat} :
    ∀ (ls : List Line) (acc st rem : List Line) (k : Nat),
      collectStem sLn acc ls = .ok (st, rem, k) →
      st = acc ++ ls.take k ∧ rem = ls.drop k ∧ k ≤ ls.length ∧
      (∀ l ∈ ls.take k, matchChoice l = none ∧ matchQStart l = none) ∧
      (rem = [] ∨ ∃ h t, rem = h :: t ∧ (matchChoice h).isSome = true) := by
  intro ls
  induction ls with
  | nil =>
    intro acc st rem k h
    simp only [collectStem] at h
    injection h with h
    injection h with h1 h
    injection h with h2 h3
    subst h1; subst h2; subst h3
    simp
  | cons l rest ih =>
    intro acc st rem k h
    simp only [collectStem] at h
    by_cases hc : (matchChoice l).isSome = true
    · rw [if_pos hc] at h
      injection h with h
      injection h with h1 h
      injection h with h2 h3
      subst h1; subst h2; subst h3
      refine ⟨by simp, by simp, by omega, by simp, Or.inr ⟨l, rest, rfl, hc⟩⟩
    · rw [if_neg hc] at h
      by_cases hq : (matchQStart l).isSome = true
      · rw [if_pos hq] at h
        exact absurd h (by simp)
      · rw [if_neg hq] at h
        rcases hr : collectStem sLn (acc ++ [l]) rest with e | ⟨st', rem', k'⟩
        · rw [hr] at h
          exact absurd h (by simp [Except.map])
        · rw [hr] at h
          simp only [Except.map] at h
          injection h with h
          injection h with h1 h
          injection h with h2 h3
          subst h1; subst h2; subst h3
          obtain ⟨ih1, ih2, ih3, ih4, ih5⟩ := ih (acc ++ [l]) st' rem' k' hr
          have hcn : matchChoice l = none := by
            rw [← Option.not_isSome_iff_eq_none]
            simp [hc]
          have hqn : matchQStart l = none := by
            rw [← Option.not_isSome_iff_eq_none]
            simp [hq]
          refine ⟨by simp [ih1], by simp [ih2], by simp; omega, ?_, ih5⟩
          intro x hx
          rcases List.mem_cons.mp (by simpa using hx) with rfl | hx2
          · exact ⟨hcn, hqn⟩
          · exact ih4 x hx2

theorem collectStem_ext {sLn : Nat} {ext : List Line} :
    ∀ (ls : List Line) (acc st : List Line) (h : Line) (tl : List Line) (k : Nat),
      collectStem sLn acc ls = .ok (st, h :: tl, k) →
      collectStem sLn acc (ls ++ ext) = .ok (st, h :: tl ++ ext, k) := by
  intro ls
  induction ls with
  | nil =>
    intro acc st h tl k hok
    simp only [collectStem] at hok
    injection hok with hok
    injection hok with h1 hok
    injection hok with h2 h3
    exact absurd h2.symm (by simp)
  | cons l rest ih =>
    intro acc st h tl k hok
    simp only [collectStem, List.cons_append] at hok ⊢
    by_cases hc : (matchChoice l).isSome = true
    · rw [if_pos hc] at hok ⊢
      injection hok with hok
      injection hok with h1 hok
      injection hok with h2 h3
      subst h1; subst h3
      injection h2 with h4 h5
      subst h4; subst h5
      rfl
    · rw [if_neg hc] at hok ⊢
      by_cases hq : (matchQStart l).isSome = true
      · rw [if_pos hq] at hok
        exact absurd hok (by simp)
      · rw [if_neg hq] at hok ⊢
        rcases hr : collectStem sLn (acc ++ [l]) rest with e | ⟨st', rem', k'⟩
        · rw [hr] at hok
          exact absurd hok (by simp [Except.map])
        · rw [hr] at hok
          simp only [Except.map] at hok
          injection hok with hok
          injection hok with h1 hok
          injection hok with h2 h3
          subst h1; subst h3
          subst h2
          have hih := ih (acc ++ [l]) st' h tl k' hr
          simp [hih, Except.map]

theorem collectStem_render {sLn : Nat} :
    ∀ (mid : List Line) (acc : List Line) (cl : Line) (rest : List Line),
      (∀ l ∈ mid, matchChoice l = none ∧ matchQStart l = none) →
      (matchChoice cl).isSome = true →
      collectStem sLn acc (mid ++ cl :: rest) = .ok (acc ++ mid, cl :: rest, mid.length) := by
  intro mid
  induction mid with
  | nil =>
    intro acc cl rest _ hcl
    simp [collectStem, hcl]
  | cons m mid ih =>
    intro acc cl rest hmid hcl
    have hm := hmid m (List.mem_cons_self m mid)
    have h1 : (matchChoice m).isSome = false := by simp [hm.1]
    have h2 : (matchQStart m).isSome = false := by simp [hm.2]
    simp only [List.cons_append, collectStem, h1, h2, Bool.false_eq_true, if_false]
    have hih := ih (acc ++ [m]) cl rest (fun l hl => hmid l (List.mem_cons_of_mem m hl)) hcl
    simp [hih, Except.map]

theorem collectChoices_ok {sLn : Nat} :
    ∀ (ls : List Line) (acc cs : List (Char × Line)) (rem : List Line) (k : Nat),
      collectChoices sLn acc ls = .ok (cs, rem, k) →
      rem = ls.drop k ∧ k ≤ ls.length ∧
      ∃ pre, cs = acc ++ pre ∧ ∀ p ∈ pre, ∃ l ∈ ls, matchChoice l = some p := by
  intro ls
  induction ls with
  | nil =>
    intro acc cs rem k h
    simp only [collectChoices] at h
    injection h with h
    injection h with h1 h
    injection h with h2 h3
    subst h1; subst h2; subst h3
    exact ⟨by simp, by simp, [], by simp, by simp⟩
  | cons l rest ih =>
    intro acc cs rem k h
    simp only [collectChoices] at h
    by_cases h4 : 4 ≤ acc.length
    · rw [if_pos h4] at h
      injection h with h
      injection h with h1 h
      injection h with h2 h3
      subst h1; subst h2; subst h3
      exact ⟨by simp, by simp, [], by simp, by simp⟩
    · rw [if_neg h4] at h
      by_cases hb : isBlank l = true
      · rw [if_pos hb] at h
        rcases hr : collectChoices sLn acc rest with e | ⟨cs', rem', k'⟩
        · rw [hr] at h
          exact absurd h (by simp [Except.map])
        · rw [hr] at h
          simp only [Except.map] at h
          injection h with h
          injection h with h1 h
          injection h with h2 h3
          subst h1; subst h2; subst h3
          obtain ⟨ih1, ih2, pre, ih3, ih4⟩ := ih acc cs' rem' k' hr
          exact ⟨by simp [ih1], by simp; omega, pre, ih3,
            fun p hp => by
              obtain ⟨l', hl', hm⟩ := ih4 p hp
              exact ⟨l', List.mem_cons_of_mem l hl', hm⟩⟩
      · rw [if_neg hb] at h
        rcases hm : matchChoice l with _ | ⟨c, t⟩
        · rw [hm] at h
          exact absurd h (by simp)
        · rw [hm] at h
          simp only [] at h
          by_cases hdup : c ∈ acc.map Prod.fst
          · rw [if_pos hdup] at h
            exact absurd h (by simp)
          · rw [if_neg hdup] at h
            rcases hr : collectChoices sLn (acc ++ [(c, t)]) rest with e | ⟨cs', rem', k'⟩
            · rw [hr] at h
              exact absurd h (by simp [Except.map])
            · rw [hr] at h
              simp only [Except.map] at h
              injection h with h
              injection h with h1 h
              injection h with h2 h3
              subst h1; subst h2; subst h3
              obtain ⟨ih1, ih2, pre, ih3, ih4⟩ := ih (acc ++ [(c, t)]) cs' rem' k' hr
              refine ⟨by simp [ih1], by simp; omega, (c, t) :: pre, by simp [ih3], ?_⟩
              intro p hp
              rcases List.mem_cons.mp hp with rfl | hp2
              · exact ⟨l, List.mem_cons_self l rest, hm⟩
              · obtain ⟨l', hl', hmm⟩ := ih4 p hp2
                exact ⟨l', List.mem_cons_of_mem l hl', hmm⟩

theorem collectChoices_nodup {sLn : Nat} :
    ∀ (ls : List Line) (acc cs : List (Char × Line)) (rem : List Line) (k : Nat),
      (acc.map Prod.fst).Nodup → collectChoices sLn acc ls = .ok (cs, rem, k) →
      (cs.map Prod.fst).Nodup := by
  intro ls
  induction ls with
  | nil =>
    intro acc cs rem k hnd h
    simp only [collectChoices] at h
    injection h with h
    injection h with h1 h
    subst h1
    exact hnd
  | cons l rest ih =>
    intro acc cs rem k hnd h
    simp only [collectChoices] at h
    by_cases h4 : 4 ≤ acc.length
    · rw [if_pos h4] at h
      injection h with h
      injection h with h1 h
      subst h1
      exact hnd
    · rw [if_neg h4] at h
      by_cases hb : isBlank l = true
      · rw [if_pos hb] at h
        rcases hr : collectChoices sLn acc rest with e | ⟨cs', rem', k'⟩
        · rw [hr] at h
          exact absurd h (by simp [Except.map])
        · rw [hr] at h
          simp only [Except.map] at h
          injection h with h
          injection h with h1 h
          subst h1
          exact ih acc cs' rem' k' hnd hr
      · rw [if_neg hb] at h
        rcases hm : matchChoice l with _ | ⟨c, t⟩
        · rw [hm] at h
          exact absurd h (by simp)
        · rw [hm] at h
          simp only [] at h
          by_cases hdup : c ∈ acc.map Prod.fst
          · rw [if_pos hdup] at h
            exact absurd h (by simp)
          · rw [if_neg hdup] at h
            rcases hr : collectChoices sLn (acc ++ [(c, t)]) rest with e | ⟨cs', rem', k'⟩
            · rw [hr] at h
              exact absurd h (by simp [Except.map])
            · rw [hr] at h
              simp only [Except.map] at h
              injection h with h
              injection h with h1 h
              subst h1
              refine ih (acc ++ [(c, t)]) cs' rem' k' ?_ hr
              simp only [List.map_append, List.map_cons, List.map_nil]
              rw [List.nodup_append]
              exact ⟨hnd, List.nodup_singleton c, by simpa using hdup⟩

theorem collectChoices_exit {sLn : Nat} :
    ∀ (ls : List Line) (acc cs : List (Char × Line)) (rem : List Line) (k : Nat),
      acc.length ≤ 4 → collectChoices sLn acc ls = .ok (cs, rem, k) →
      cs.length ≤ 4 ∧ (cs.length ≠ 4 → rem = []) := by
  intro ls
  induction ls with
  | nil =>
    intro acc cs rem k hle h
    simp only [collectChoices] at h
    injection h with h
    injection h with h1 h
    injection h with h2 h3
    subst h1; subst h2
    exact ⟨hle, fun _ => rfl⟩
  | cons l rest ih =>
    intro acc cs rem k hle h
    simp only [collectChoices] at h
    by_cases h4 : 4 ≤ acc.length
    · rw [if_pos h4] at h
      injection h with h
      injection h with h1 h
      injection h with h2 h3
      subst h1; subst h2
      exact ⟨hle, fun hne => absurd (by omega) hne⟩
    · rw [if_neg h4] at h
      by_cases hb : isBlank l = true
      · rw [if_pos hb] at h
        rcases hr : collectChoices sLn acc rest with e | ⟨cs', rem', k'⟩
        · rw [hr] at h
          exact absurd h (by simp [Except.map])
        · rw [hr] at h
          simp only [Except.map] at h
          injection h with h
          injection h with h1 h
          injection h with h2 h3
          subst h1; subst h2
          exact ih acc cs' rem' k' hle hr
      · rw [if_neg hb] at h
        rcases hm : matchChoice l with _ | ⟨c, t⟩
        · rw [hm] at h
          exact absurd h (by simp)
        · rw [hm] at h
          simp only [] at h
          by_cases hdup : c ∈ acc.map Prod.fst
          · rw [if_pos hdup] at h
            exact absurd h (by simp)
          · rw [if_neg hdup] at h
            rcases hr : collectChoices sLn (acc ++ [(c, t)]) rest with e | ⟨cs', rem', k'⟩
            · rw [hr] at h
              exact absurd h (by simp [Except.map])
            · rw [hr] at h
              simp only [Except.map] at h
              injection h with h
              injection h with h1 h
              injection h with h2 h3
              subst h1; subst h2
              exact ih (acc ++ [(c, t)]) cs' rem' k' (by simp; omega) hr

theorem collectChoices_ext {sLn : Nat} {ext : List Line} :
    ∀ (ls : List Line) (acc cs : List (Char × Line)) (h : Line) (tl : List Line) (k : Nat),
      collectChoices sLn acc ls = .ok (cs, h :: tl, k) →
      collectChoices sLn acc (ls ++ ext) = .ok (cs, h :: tl ++ ext, k) := by
  intro ls
  induction ls with
  | nil =>
    intro acc cs h tl k hok
    simp only [collectChoices] at hok
    injection hok with hok
    injection hok with h1 hok
    injection hok with h2 h3
    exact absurd h2.symm (by simp)
  | cons l rest ih =>
    intro acc cs h tl k hok
    simp only [collectChoices, List.cons_append] at hok ⊢
    by_cases h4 : 4 ≤ acc.length
    · rw [if_pos h4] at hok ⊢
      injection hok with hok
      injection hok with h1 hok
      injection hok with h2 h3
      subst h1; subst h3
      injection h2 with h5 h6
      subst h5; subst h6
      rfl
    · rw [if_neg h4] at hok ⊢
      by_cases hb : isBlank l = true
      · rw [if_pos hb] at hok ⊢
        rcases hr : collectChoices sLn acc rest with e | ⟨cs', rem', k'⟩
        · rw [hr] at hok
          exact absurd hok (by simp [Except.map])
        · rw [hr] at hok
          simp only [Except.map] at hok
          injection hok with hok
          injection hok with h1 hok
          injection hok with h2 h3
          subst h1; subst h3
          subst h2
          have hih := ih acc cs' h tl k' hr
          simp [hih, Except.map]
      · rw [if_neg hb] at hok ⊢
        rcases hm : matchChoice l with _ | ⟨c, t⟩
        · rw [hm] at hok
          exact absurd hok (by simp)
        · rw [hm] at hok
          simp only [] at hok ⊢
          by_cases hdup : c ∈ acc.map Prod.fst
          · rw [if_pos hdup] at hok
            exact absurd hok (by simp)
          · rw [if_neg hdup] at hok ⊢
            rcases hr : collectChoices sLn (acc ++ [(c, t)]) rest with e | ⟨cs', rem', k'⟩
            · rw [hr] at hok
              exact absurd hok (by simp [Except.map])
            · rw [hr] at hok
              simp only [Except.map] at hok
              injection hok with hok
              injection hok with h1 hok
              injection hok with h2 h3
              subst h1; subst h3
              subst h2
              have hih := ih (acc ++ [(c, t)]) cs' h tl k' hr
              simp [hih, Except.map]

/-! ### The letter-set check -/

theorem letterSetOk_true_iff (ls : List Char) :
    letterSetOk ls = true ↔
      ('A' ∈ ls ∧ 'B' ∈ ls ∧ 'C' ∈ ls ∧ 'D' ∈ ls ∧ ∀ c ∈ ls, c ∈ abcd) := by
  simp [letterSetOk, List.all_eq_true]

theorem letterSetOk_of_nodup (ls : List Char) (hnd : ls.Nodup)
    (hsub : ∀ c ∈ ls, c ∈ abcd) (hlen : ls.length = 4) : letterSetOk ls = true := by
  have hsp : ls.Subperm abcd := List.subperm_of_subset hnd hsub
  have hperm : List.Perm ls abcd := hsp.perm_of_length_le (by rw [hlen]; decide)
  rw [letterSetOk_true_iff]
  refine ⟨?_, ?_, ?_, ?_, hsub⟩ <;> exact hperm.mem_iff.mpr (by decide)

theorem perm_abcd_of_letterSetOk (ls : List Char) (hnd : ls.Nodup)
    (h : letterSetOk ls = true) : List.Perm ls abcd := by
  rw [letterSetOk_true_iff] at h
  obtain ⟨hA, hB, hC, hD, hsub⟩ := h
  have h1 : ls.Subperm abcd := List.subperm_of_subset hnd hsub
  have h2 : abcd.Subperm ls := by
    refine List.subperm_of_subset abcd_nodup ?_
    intro c hc
    fin_cases hc <;> assumption
  exact h1.antisymm h2

/-! ### Block-level parsing -/

theorem parseBlock_inv {sLn : Nat} {first : Line} {rest : List Line} {q : Question}
    {rem : List Line} {k : Nat} (h : parseBlock sLn first rest = .ok (q, rem, k)) :
    ∃ stem r2 k2 cs r3 k3 al c,
      collectStem sLn (if first = [] then [] else [first])
          (if first = [] then skipBlanks rest else (rest, 0)).1 = .ok (stem, r2, k2) ∧
      stem ≠ [] ∧ r2 ≠ [] ∧
      collectChoices sLn [] r2 = .ok (cs, r3, k3) ∧
      letterSetOk (cs.map Prod.fst) = true ∧
      (skipBlanks r3).1 = al :: rem ∧
      matchAnswer al = some c ∧
      q = ⟨stem, cs, c.toUpper, sLn⟩ ∧
      k = (if first = [] then skipBlanks rest else (rest, 0)).2 + k2 + k3 +
          (skipBlanks r3).2 + 1 := by
  unfold parseBlock at h
  simp only [] at h
  split at h
  · exact absurd h (by simp)
  · rename_i stem r2 k2 heq1
    split at h
    · exact absurd h (by simp)
    · rename_i hstem
      split at h
      · exact absurd h (by simp)
      · rename_i hr2
        split at h
        · exact absurd h (by simp)
        · rename_i cs r3 k3 heq4
          split at h
          · rename_i hlset
            split at h
            · exact absurd h (by simp)
            · rename_i al r5 heq6
              split at h
              · exact absurd h (by simp)
              · rename_i c heq7
                injection h with h
                injection h with h1 h
                injection h with h2 h3
                refine ⟨stem, r2, k2, cs, r3, k3, al, c, heq1, hstem, hr2, heq4, hlset,
                  ?_, heq7, h1.symm, h3.symm⟩
                rw [heq6, h2]
          · exact absurd h (by simp)

theorem parseBlock_build {sLn : Nat} {first : Line} {rest stem r2 : List Line} {k2 : Nat}
    {cs : List (Char × Line)} {r3 : List Line} {k3 : Nat} {al : Line} {rem : List Line}
    {c : Char}
    (h1 : collectStem sLn (if first = [] then [] else [first])
        (if first = [] then skipBlanks rest else (rest, 0)).1 = .ok (stem, r2, k2))
    (h2 : stem ≠ []) (h3 : r2 ≠ [])
    (h4 : collectChoices sLn [] r2 = .ok (cs, r3, k3))
    (h5 : letterSetOk (cs.map Prod.fst) = true)
    (h6 : (skipBlanks r3).1 = al :: rem)
    (h7 : matchAnswer al = some c) :
    parseBlock sLn first rest = .ok (⟨stem, cs, c.toUpper, sLn⟩, rem,
      (if first = [] then skipBlanks rest else (rest, 0)).2 + k2 + k3 +
        (skipBlanks r3).2 + 1) := by
  unfold parseBlock
  simp only []
  rw [h1]
  simp only []
  rw [if_neg h2, if_neg h3, h4]
  simp only []
  rw [if_pos h5, h6]
  simp only []
  rw [h7]

theorem collectStem_lineNo {sLn sLn' : Nat} :
    ∀ (ls acc : List Line) (r : List Line × List Line × Nat),
      collectStem sLn acc ls = .ok r → collectStem sLn' acc ls = .ok r := by
  intro ls
  induction ls with
  | nil => intro acc r h; exact h
  | cons l rest ih =>
    intro acc r h
    simp only [collectStem] at h ⊢
    by_cases hc : (matchChoice l).isSome = true
    · rw [if_pos hc] at h ⊢
      exact h
    · rw [if_neg hc] at h ⊢
      by_cases hq : (matchQStart l).isSome = true
      · rw [if_pos hq] at h
        exact absurd h (by simp)
      · rw [if_neg hq] at h ⊢
        rcases hr : collectStem sLn (acc ++ [l]) rest with e | r'
        · rw [hr] at h
          exact absurd h (by simp [Except.map])
        · rw [hr] at h
          rw [ih (acc ++ [l]) r' hr]
          exact h

theorem collectChoices_lineNo {sLn sLn' : Nat} :
    ∀ (ls : List Line) (acc : List (Char × Line)) (r : List (Char × Line) × List Line × Nat),
      collectChoices sLn acc ls = .ok r → collectChoices sLn' acc ls = .ok r := by
  intro ls
  induction ls with
  | nil => intro acc r h; exact h
  | cons l rest ih =>
    intro acc r h
    simp only [collectChoices] at h ⊢
    by_cases h4 : 4 ≤ acc.length
    · rw [if_pos h4] at h ⊢
      exact h
    · rw [if_neg h4] at h ⊢
      by_cases hb : isBlank l = true
      · rw [if_pos hb] at h ⊢
        rcases hr : collectChoices sLn acc rest with e | r'
        · rw [hr] at h
          exact absurd h (by simp [Except.map])
        · rw [hr] at h
          rw [ih acc r' hr]
          exact h
      · rw [if_neg hb] at h ⊢
        rcases hm : matchChoice l with _ | ⟨c, t⟩
        · rw [hm] at h
          exact absurd h (by simp)
        · rw [hm] at h
          simp only [] at h ⊢
          by_cases hdup : c ∈ acc.map Prod.fst
          · rw [if_pos hdup] at h
            exact absurd h (by simp)
          · rw [if_neg hdup] at h ⊢
            rcases hr : collectChoices sLn (acc ++ [(c, t)]) rest with e | r'
            · rw [hr] at h
              exact absurd h (by simp [Except.map])
            · rw [hr] at h
              rw [ih (acc ++ [(c, t)]) r' hr]
              exact h

theorem parseBlock_lineNo {sLn sLn' : Nat} {first : Line} {rest : List Line} {q : Question}
    {rem : List Line} {k : Nat} (h : parseBlock sLn first rest = .ok (q, rem, k)) :
    parseBlock sLn' first rest = .ok (⟨q.stem_lines, q.choices, q.answer_letter, sLn'⟩, rem, k) := by
  obtain ⟨stem, r2, k2, cs, r3, k3, al, c, h1, h2, h3, h4, h5, h6, h7, hq, hk⟩ :=
    parseBlock_inv h
  subst hq hk
  exact parseBlock_build (collectStem_lineNo _ _ _ h1) h2 h3
    (collectChoices_lineNo _ _ _ h4) h5 h6 h7

theorem cons_nonWs_of_dropWs_self {l : Line} (hd : dropWs l = l) (hne : l ≠ []) :
    ∃ c t, l = c :: t ∧ isPySpace c = false := by
  cases l with
  | nil => exact absurd rfl hne
  | cons c t =>
    by_cases hc : isPySpace c = true
    · exfalso
      rw [dropWs_cons_of_ws hc] at hd
      have hsuf : (dropWs t).length ≤ t.length := (dropWs_suffix t).length_le
      have hlen := congrArg List.length hd
      simp only [List.length_cons] at hlen
      omega
    · exact ⟨c, t, rfl, by simpa using hc⟩

theorem any_nonWs_of_dropWs_self {l : Line} (hd : dropWs l = l) (hne : l ≠ []) :
    l.any (fun c => !isPySpace c) = true := by
  obtain ⟨c, t, rfl, hc⟩ := cons_nonWs_of_dropWs_self hd hne
  simp [hc]


/-- `parseBlock_build` with the scanner state abstracted, convenient for
rewriting. -/
theorem parseBlock_build' {sLn : Nat} {first : Line} {rest : List Line} {stem0 : List Line}
    {p1 : List Line × Nat} {stem r2 : List Line} {k2 : Nat} {cs : List (Char × Line)}
    {r3 : List Line} {k3 : Nat} {al : Line} {rem : List Line} {c : Char}
    (hs0 : (if first = [] then ([] : List Line) else [first]) = stem0)
    (hp1 : (if first = [] then skipBlanks rest else (rest, 0)) = p1)
    (h1 : collectStem sLn stem0 p1.1 = .ok (stem, r2, k2))
    (h2 : stem ≠ []) (h3 : r2 ≠ [])
    (h4 : collectChoices sLn [] r2 = .ok (cs, r3, k3))
    (h5 : letterSetOk (cs.map Prod.fst) = true)
    (h6 : (skipBlanks r3).1 = al :: rem)
    (h7 : matchAnswer al = some c) :
    parseBlock sLn first rest = .ok (⟨stem, cs, c.toUpper, sLn⟩, rem,
      p1.2 + k2 + k3 + (skipBlanks r3).2 + 1) := by
  subst hs0
  subst hp1
  exact parseBlock_build h1 h2 h3 h4 h5 h6 h7

theorem parseBlock_ext {sLn : Nat} {first : Line} {rest : List Line} {q : Question}
    {rem : List Line} {k : Nat} (ext : List Line)
    (h : parseBlock sLn first rest = .ok (q, rem, k)) :
    parseBlock sLn first (rest ++ ext) = .ok (q, rem ++ ext, k) := by
  obtain ⟨stem, r2, k2, cs, r3, k3, al, c, h1, h2, h3, h4, h5, h6, h7, hq, hk⟩ :=
    parseBlock_inv h
  obtain ⟨b2, t2, rfl⟩ : ∃ b t, r2 = b :: t := by
    cases r2 with
    | nil => exact absurd rfl h3
    | cons b t => exact ⟨b, t, rfl⟩
  have hr3ne : r3 ≠ [] := by
    intro hh
    subst hh
    simp [skipBlanks] at h6
  obtain ⟨b3, t3, rfl⟩ : ∃ b t, r3 = b :: t := by
    cases r3 with
    | nil => exact absurd rfl hr3ne
    | cons b t => exact ⟨b, t, rfl⟩
  have h4' : collectChoices sLn [] ((b2 :: t2) ++ ext) = .ok (cs, (b3 :: t3) ++ ext, k3) := by
    have := @collectChoices_ext sLn ext (b2 :: t2) [] cs b3 t3 k3 h4
    simpa using this
  have h6' : skipBlanks ((b3 :: t3) ++ ext) = (al :: (rem ++ ext), (skipBlanks (b3 :: t3)).2) := by
    rcases hsk : (skipBlanks (b3 :: t3)).1 with _ | ⟨ba, ta⟩
    · rw [hsk] at h6
      exact absurd h6 (by simp)
    · rw [hsk] at h6
      injection h6 with hx hy
      subst hx
      subst hy
      have := @skipBlanks_ext ext (b3 :: t3) ba ta hsk
      simpa using this
  by_cases hf : first = []
  · subst hf
    simp only [reduceIte] at h1 hk
    rcases hsk : (skipBlanks rest).1 with _ | ⟨b1, t1⟩
    · exfalso
      rw [hsk] at h1
      simp [collectStem] at h1
    · rw [hsk] at h1
      have hsk' := @skipBlanks_ext ext rest b1 t1 hsk
      have h1' : collectStem sLn [] ((b1 :: t1) ++ ext) = .ok (stem, (b2 :: t2) ++ ext, k2) := by
        have := @collectStem_ext sLn ext (b1 :: t1) [] stem b2 t2 k2 h1
        simpa using this
      have hb := parseBlock_build'
        (show (if ([] : Line) = [] then ([] : List Line) else [[]]) = [] by simp)
        (show (if ([] : Line) = [] then skipBlanks (rest ++ ext) else (rest ++ ext, 0)) =
          ((b1 :: t1) ++ ext, (skipBlanks rest).2) by
            simp only [reduceIte]
            simpa using hsk')
        h1' h2 (by simp) h4' h5
        (show (skipBlanks ((b3 :: t3) ++ ext)).1 = al :: (rem ++ ext) by rw [h6'])
        h7
      rw [hq, hk]
      rw [h6'] at hb
      simpa using hb
  · simp only [if_neg hf] at h1 hk
    have h1' : collectStem sLn [first] ((rest, 0).1 ++ ext) = .ok (stem, (b2 :: t2) ++ ext, k2) := by
      have := @collectStem_ext sLn ext (rest, 0).1 [first] stem b2 t2 k2 h1
      simpa using this
    have hb := parseBlock_build'
      (show (if first = [] then ([] : List Line) else [first]) = [first] from if_neg hf)
      (show (if first = [] then skipBlanks (rest ++ ext) else (rest ++ ext, 0)) =
        (rest ++ ext, 0) from if_neg hf)
      (by simpa using h1') h2 (by simp) h4' h5
      (show (skipBlanks ((b3 :: t3) ++ ext)).1 = al :: (rem ++ ext) by rw [h6'])
      h7
    rw [hq, hk]
    rw [h6'] at hb
    simpa using hb

theorem parseBlock_drop {sLn : Nat} {first : Line} {rest : List Line} {q : Question}
    {rem : List Line} {k : Nat} (h : parseBlock sLn first rest = .ok (q, rem, k)) :
    rem.IsSuffix rest ∧ rest.length = k + rem.length := by
  obtain ⟨stem, r2, k2, cs, r3, k3, al, c, h1, h2, h3, h4, h5, h6, h7, hq, hk⟩ :=
    parseBlock_inv h
  have hr1 : (if first = [] then skipBlanks rest else (rest, 0)).1 =
      rest.drop (if first = [] then skipBlanks rest else (rest, 0)).2 ∧
      (if first = [] then skipBlanks rest else (rest, 0)).2 ≤ rest.length := by
    by_cases hf : first = []
    · simp only [if_pos hf]
      exact skipBlanks_eq_drop rest
    · simp [if_neg hf]
  obtain ⟨hr1d, hr1l⟩ := hr1
  obtain ⟨_, hst2, hst3, _, _⟩ := collectStem_ok _ _ _ _ _ h1
  obtain ⟨hcc1, hcc2, _⟩ := collectChoices_ok _ _ _ _ _ h4
  obtain ⟨hsb1, hsb2⟩ := skipBlanks_eq_drop r3
  have s1 : ((if first = [] then skipBlanks rest else (rest, 0)).1).IsSuffix rest := by
    rw [hr1d]
    exact List.drop_suffix _ _
  have s2 : r2.IsSuffix (if first = [] then skipBlanks rest else (rest, 0)).1 := by
    rw [hst2]
    exact List.drop_suffix _ _
  have s3 : r3.IsSuffix r2 := by
    rw [hcc1]
    exact List.drop_suffix _ _
  have s4 : ((skipBlanks r3).1).IsSuffix r3 := by
    rw [hsb1]
    exact List.drop_suffix _ _
  have s5 : rem.IsSuffix (skipBlanks r3).1 := by
    rw [h6]
    exact ⟨[al], rfl⟩
  refine ⟨(((s5.trans s4).trans s3).trans s2).trans s1, ?_⟩
  have e1 := congrArg List.length hr1d
  have e2 := congrArg List.length hst2
  have e3 := congrArg List.length hcc1
  have e4 := congrArg List.length hsb1
  have e5 := congrArg List.length h6
  simp only [List.length_drop, List.length_cons] at e1 e2 e3 e4 e5
  omega

theorem parseBlock_post {sLn : Nat} {first : Line} {rest : List Line} {q : Question}
    {rem : List Line} {k : Nat} (hfirst : dropWs first = first)
    (h : parseBlock sLn first rest = .ok (q, rem, k)) :
    WFQ q ∧
    (∃ hd tl, q.stem_lines = hd :: tl ∧ hd.any (fun ch => !isPySpace ch) = true ∧
      (∀ l ∈ tl, matchChoice l = none ∧ matchQStart l = none) ∧
      (hd = first ∨ hd ∈ rest) ∧ (∀ l ∈ tl, l ∈ rest)) ∧
    (∀ p ∈ q.choices, ∃ l ∈ rest, matchChoice l = some p) ∧
    q.start_line_no = sLn := by
  obtain ⟨stem, r2, k2, cs, r3, k3, al, c, h1, h2, h3, h4, h5, h6, h7, hq, hk⟩ :=
    parseBlock_inv h
  have hr1 : (if first = [] then skipBlanks rest else (rest, 0)).1 =
      rest.drop (if first = [] then skipBlanks rest else (rest, 0)).2 := by
    by_cases hf : first = []
    · simp only [if_pos hf]
      exact (skipBlanks_eq_drop rest).1
    · simp [if_neg hf]
  have hr1sub : ∀ l ∈ (if first = [] then skipBlanks rest else (rest, 0)).1, l ∈ rest := by
    intro l hl
    rw [hr1] at hl
    exact List.drop_subset _ _ hl
  obtain ⟨hst1, hst2, hst3, hst4, hst5⟩ := collectStem_ok _ _ _ _ _ h1
  obtain ⟨hcc1, hcc2, pre, hcc3, hcc4⟩ := collectChoices_ok _ _ _ _ _ h4
  have hcspre : cs = pre := by simpa using hcc3
  subst hcspre
  -- every collected choice pair comes from a line of `rest`
  have hchoice : ∀ p ∈ cs, ∃ l ∈ rest, matchChoice l = some p := by
    intro p hp
    obtain ⟨l, hl, hml⟩ := hcc4 p hp
    refine ⟨l, ?_, hml⟩
    have : l ∈ (if first = [] then skipBlanks rest else (rest, 0)).1 := by
      have hsub2 : r2 = List.drop k2 (if first = [] then skipBlanks rest else (rest, 0)).1 :=
        hst2
      rw [hsub2] at hl
      exact List.drop_subset _ _ hl
    exact hr1sub l this
  -- letters: in the alphabet, no duplicates, four of them
  have hlet : ∀ ch ∈ cs.map Prod.fst, ch ∈ abcd := by
    intro ch hch
    obtain ⟨p, hp, hpe⟩ := List.mem_map.mp hch
    obtain ⟨l, _, hml⟩ := hchoice p hp
    have := (@matchChoice_some_spec l p.1 p.2 (by simpa using hml)).1
    rw [← hpe]
    exact this
  have hnd : (cs.map Prod.fst).Nodup :=
    collectChoices_nodup _ _ _ _ _ (by simp) h4
  have hlen4 : cs.length = 4 := by
    obtain ⟨hle, hne⟩ := collectChoices_exit _ _ _ _ _ (by simp) h4
    by_contra hne4
    have hr3nil : r3 = [] := hne hne4
    subst hr3nil
    simp [skipBlanks] at h6
  have hwfq : WFQ q := by
    subst hq
    constructor
    · exact perm_abcd_of_letterSetOk _ hnd h5
    · exact matchAnswer_some_upper h7
  -- the stem
  have hstem : ∃ hd tl, stem = hd :: tl ∧ hd.any (fun ch => !isPySpace ch) = true ∧
      (∀ l ∈ tl, matchChoice l = none ∧ matchQStart l = none) ∧
      (hd = first ∨ hd ∈ rest) ∧ (∀ l ∈ tl, l ∈ rest) := by
    by_cases hf : first = []
    · -- stem collected wholly from the post-blank-skip lines
      rw [if_pos hf] at hst1
      simp only [List.nil_append] at hst1
      have hr1' : (if first = [] then skipBlanks rest else (rest, 0)).1 = (skipBlanks rest).1 := by
        rw [if_pos hf]
      rcases hk2 : k2 with _ | k2'
      · exfalso
        rw [hk2] at hst1
        simp at hst1
        exact h2 hst1
      rcases hr1c : (if first = [] then skipBlanks rest else (rest, 0)).1 with _ | ⟨b1, t1⟩
      · exfalso
        rw [hr1c] at hst1
        simp at hst1
        exact h2 hst1
      have hb1 : isBlank b1 = false := by
        rcases skipBlanks_head rest with hnil | ⟨hh, tt, hht, hbf⟩
        · rw [hr1', hnil] at hr1c
          exact absurd hr1c.symm (by simp)
        · rw [hr1', hht] at hr1c
          injection hr1c with hx hy
          rw [← hx]
          exact hbf
      refine ⟨b1, t1.take k2', ?_, ?_, ?_, ?_, ?_⟩
      · rw [hst1, hr1c, hk2]
        simp [List.take_succ_cons]
      · exact any_nonWs_of_not_isBlank hb1
      · intro l hl
        refine hst4 l ?_
        rw [hr1c, hk2]
        simp only [List.take_succ_cons]
        exact List.mem_cons_of_mem _ hl
      · right
        refine hr1sub b1 ?_
        rw [hr1c]
        exact List.mem_cons_self _ _
      · intro l hl
        refine hr1sub l ?_
        rw [hr1c]
        exact List.mem_cons_of_mem _ (List.take_subset _ _ hl)
    · rw [if_neg hf] at hst1
      refine ⟨first, List.take k2 (if first = [] then skipBlanks rest else (rest, 0)).1,
        by simpa using hst1, any_nonWs_of_dropWs_self hfirst hf, ?_, Or.inl rfl, ?_⟩
      · intro l hl
        exact hst4 l hl
      · intro l hl
        exact hr1sub l (List.take_subset _ _ hl)
  subst hq
  exact ⟨hwfq, hstem, hchoice, rfl⟩

/-! ### The outer scanning loop -/

theorem matchQStart_some_spec {l first : Line} (h : matchQStart l = some first) :
    dropWs first = first ∧ first.IsSuffix l := by
  unfold matchQStart at h
  simp only [] at h
  split at h
  · exact absurd h (by simp)
  · split at h
    · rename_i rest heq
      injection h with h
      subst h
      refine ⟨dropWs_idem _, ?_⟩
      have s1 : (dropWs rest).IsSuffix rest := dropWs_suffix _
      have s2 : ('.' :: rest).IsSuffix (dropWs l) := by
        rw [← heq]
        exact List.drop_suffix _ _
      have s3 : rest.IsSuffix ('.' :: rest) := ⟨['.'], rfl⟩
      exact (s1.trans (s3.trans s2)).trans (dropWs_suffix l)
    · exact absurd h (by simp)

theorem parseLoopF_fuel_irrel :
    ∀ (n : Nat) (ls : List Line), ls.length ≤ n →
      ∀ (f g i : Nat), ls.length < f → ls.length < g →
        parseLoopF f ls i = parseLoopF g ls i := by
  intro n
  induction n with
  | zero =>
    intro ls hn f g i hf hg
    have hls : ls = [] := List.length_eq_zero.mp (by omega)
    subst hls
    obtain ⟨f', rfl⟩ : ∃ f', f = f' + 1 := ⟨f - 1, by omega⟩
    obtain ⟨g', rfl⟩ : ∃ g', g = g' + 1 := ⟨g - 1, by omega⟩
    rfl
  | succ n ih =>
    intro ls hn f g i hf hg
    cases ls with
    | nil =>
      obtain ⟨f', rfl⟩ : ∃ f', f = f' + 1 := ⟨f - 1, by omega⟩
      obtain ⟨g', rfl⟩ : ∃ g', g = g' + 1 := ⟨g - 1, by omega⟩
      rfl
    | cons l rest =>
      obtain ⟨f', rfl⟩ : ∃ f', f = f' + 1 := ⟨f - 1, by omega⟩
      obtain ⟨g', rfl⟩ : ∃ g', g = g' + 1 := ⟨g - 1, by omega⟩
      simp only [parseLoopF]
      rcases hm : matchQStart l with _ | first
      · simp only []
        rw [ih rest (by simp at hn; omega) f' g' (i + 1)
          (by simp at hf; omega) (by simp at hg; omega)]
      · simp only []
        rcases hpb : parseBlock (i + 1) first rest with e | ⟨q', rem, kk⟩
        · rfl
        · simp only []
          obtain ⟨hsuf, hlen⟩ := parseBlock_drop hpb
          rw [ih rem (by simp at hn; omega) f' g' (i + 1 + kk)
            (by simp at hf; omega) (by simp at hg; omega)]

theorem parseLoopF_shift :
    ∀ (f : Nat) (ls : List Line) (i : Nat) (qs : List Question) (d : Nat),
      parseLoopF f ls i = .ok (qs, d) → ∀ i', ∃ qs',
        parseLoopF f ls i' = .ok (qs', d) ∧ qs'.length = qs.length := by
  intro f
  induction f with
  | zero =>
    intro ls i qs d h i'
    simp only [parseLoopF] at h
    injection h with h
    injection h with h1 h2
    subst h1; subst h2
    exact ⟨[], rfl, rfl⟩
  | succ fu ih =>
    intro ls i qs d h i'
    cases ls with
    | nil =>
      simp only [parseLoopF] at h
      injection h with h
      injection h with h1 h2
      subst h1; subst h2
      exact ⟨[], rfl, rfl⟩
    | cons l rest =>
      simp only [parseLoopF] at h ⊢
      rcases hm : matchQStart l with _ | first
      · try rw [hm] at h
        simp only [] at h ⊢
        rcases hr : parseLoopF fu rest (i + 1) with e | ⟨qs0, d0⟩
        · rw [hr] at h
          exact absurd h (by simp [Except.map])
        · rw [hr] at h
          simp only [Except.map] at h
          injection h with h
          injection h with h1 h2
          subst h1; subst h2
          obtain ⟨qs', hq', hlen⟩ := ih rest (i + 1) qs0 d0 hr (i' + 1)
          refine ⟨qs', ?_, hlen⟩
          rw [hq']
          rfl
      · try rw [hm] at h
        simp only [] at h ⊢
        rcases hpb : parseBlock (i + 1) first rest with e | ⟨q', rem, kk⟩
        · try rw [hpb] at h
          simp only [] at h
          exact absurd h (by simp)
        · try rw [hpb] at h
          simp only [] at h
          rcases hr : parseLoopF fu rem (i + 1 + kk) with e | ⟨qs0, d0⟩
          · rw [hr] at h
            exact absurd h (by simp [Except.map])
          · rw [hr] at h
            simp only [Except.map] at h
            injection h with h
            injection h with h1 h2
            subst h1; subst h2
            obtain ⟨qs', hq', hlen⟩ := ih rem (i + 1 + kk) qs0 d0 hr (i' + 1 + kk)
            have hpb' := @parseBlock_lineNo (i + 1) (i' + 1) first rest q' rem kk hpb
            refine ⟨⟨q'.stem_lines, q'.choices, q'.answer_letter, i' + 1⟩ :: qs', ?_,
              by simp [hlen]⟩
            rw [hpb']
            simp only []
            rw [hq']
            rfl

theorem QPost_mono {l : Line} {rest : List Line} {q : Question}
    (h : QPost rest q) : QPost (l :: rest) q := by
  obtain ⟨h1, h2, h3, h4⟩ := h
  refine ⟨h1, h2, ?_, ?_⟩
  · intro sl hsl
    obtain ⟨l', hl', hsuf⟩ := h3 sl hsl
    exact ⟨l', List.mem_cons_of_mem _ hl', hsuf⟩
  · intro p hp
    obtain ⟨hws, l', hl', hsuf⟩ := h4 p hp
    exact ⟨hws, l', List.mem_cons_of_mem _ hl', hsuf⟩

theorem QPost_of_suffix {ls ls' : List Line} {q : Question}
    (hsub : ∀ l ∈ ls, l ∈ ls') (h : QPost ls q) : QPost ls' q := by
  obtain ⟨h1, h2, h3, h4⟩ := h
  refine ⟨h1, h2, ?_, ?_⟩
  · intro sl hsl
    obtain ⟨l', hl', hsuf⟩ := h3 sl hsl
    exact ⟨l', hsub l' hl', hsuf⟩
  · intro p hp
    obtain ⟨hws, l', hl', hsuf⟩ := h4 p hp
    exact ⟨hws, l', hsub l' hl', hsuf⟩

theorem parseLoopF_post :
    ∀ (f : Nat) (ls : List Line) (i : Nat) (qs : List Question) (d : Nat),
      parseLoopF f ls i = .ok (qs, d) → ∀ q ∈ qs, QPost ls q := by
  intro f
  induction f with
  | zero =>
    intro ls i qs d h q hq
    simp only [parseLoopF] at h
    injection h with h
    injection h with h1 h2
    subst h1
    simp at hq
  | succ fu ih =>
    intro ls i qs d h q hq
    cases ls with
    | nil =>
      simp only [parseLoopF] at h
      injection h with h
      injection h with h1 h2
      subst h1
      simp at hq
    | cons l rest =>
      simp only [parseLoopF] at h
      rcases hm : matchQStart l with _ | first
      · try rw [hm] at h
        simp only [] at h
        rcases hr : parseLoopF fu rest (i + 1) with e | ⟨qs0, d0⟩
        · rw [hr] at h
          exact absurd h (by simp [Except.map])
        · rw [hr] at h
          simp only [Except.map] at h
          injection h with h
          injection h with h1 h2
          subst h1
          exact QPost_mono (ih rest (i + 1) qs0 d0 hr q hq)
      · try rw [hm] at h
        simp only [] at h
        rcases hpb : parseBlock (i + 1) first rest with e | ⟨q', rem, kk⟩
        · try rw [hpb] at h
          simp only [] at h
          exact absurd h (by simp)
        · try rw [hpb] at h
          simp only [] at h
          rcases hr : parseLoopF fu rem (i + 1 + kk) with e | ⟨qs0, d0⟩
          · rw [hr] at h
            exact absurd h (by simp [Except.map])
          · rw [hr] at h
            simp only [Except.map] at h
            injection h with h
            injection h with h1 h2
            subst h1
            obtain ⟨hdw, hsufl⟩ := matchQStart_some_spec hm
            rcases List.mem_cons.mp hq with rfl | hq2
            · -- the question parsed from this block
              obtain ⟨hwfq, ⟨hd, tl, hst, hany, htl, hdor, htlmem⟩, hch, _⟩ :=
                parseBlock_post hdw hpb
              refine ⟨hwfq, ⟨hd, tl, hst, hany, htl⟩, ?_, ?_⟩
              · intro sl hsl
                rw [hst] at hsl
                rcases List.mem_cons.mp hsl with rfl | hsl2
                · rcases hdor with rfl | hmem
                  · exact ⟨l, List.mem_cons_self _ _, hsufl⟩
                  · exact ⟨sl, List.mem_cons_of_mem _ hmem, List.suffix_refl sl⟩
                · exact ⟨sl, List.mem_cons_of_mem _ (htlmem sl hsl2), List.suffix_refl sl⟩
              · intro p hp
                obtain ⟨l', hl', hml⟩ := hch p hp
                obtain ⟨_, hws, hsuf⟩ :=
                  @matchChoice_some_spec l' p.1 p.2 (by simpa using hml)
                exact ⟨hws, l', List.mem_cons_of_mem _ hl', hsuf⟩
            · -- questions parsed from the remainder
              have hq0 := ih rem (i + 1 + kk) qs0 d0 hr q hq2
              obtain ⟨hsuf, _⟩ := parseBlock_drop hpb
              exact QPost_mono (QPost_of_suffix (fun x hx => hsuf.subset hx) hq0)

theorem parseLoopF_append :
    ∀ (n : Nat) (ls1 : List Line), ls1.length ≤ n →
      ∀ (f i : Nat) (qs : List Question) (d : Nat), ls1.length < f →
        parseLoopF f ls1 i = .ok (qs, d) →
        ∀ (ext : List Line) (f2 : Nat) (qs2 : List Question) (d2 : Nat), ext.length < f2 →
          parseLoopF f2 ext (i + ls1.length) = .ok (qs2, d2) →
          ∀ f3, (ls1 ++ ext).length < f3 →
            parseLoopF f3 (ls1 ++ ext) i = .ok (qs ++ qs2, d + d2) := by
  intro n
  induction n with
  | zero =>
    intro ls1 hn f i qs d hf h ext f2 qs2 d2 hf2 h2 f3 hf3
    have hls : ls1 = [] := List.length_eq_zero.mp (by omega)
    subst hls
    obtain ⟨f', rfl⟩ : ∃ f', f = f' + 1 := ⟨f - 1, by omega⟩
    simp only [parseLoopF] at h
    injection h with h
    injection h with h1 h2'
    subst h1; subst h2'
    simp only [List.nil_append, List.length_nil, Nat.add_zero] at h2 hf3 ⊢
    rw [parseLoopF_fuel_irrel ext.length ext (by omega) f3 f2 i (by omega) hf2]
    simpa using h2
  | succ n ih =>
    intro ls1 hn f i qs d hf h ext f2 qs2 d2 hf2 h2 f3 hf3
    cases ls1 with
    | nil =>
      obtain ⟨f', rfl⟩ : ∃ f', f = f' + 1 := ⟨f - 1, by omega⟩
      simp only [parseLoopF] at h
      injection h with h
      injection h with h1 h2'
      subst h1; subst h2'
      simp only [List.nil_append, List.length_nil, Nat.add_zero] at h2 hf3 ⊢
      rw [parseLoopF_fuel_irrel ext.length ext (by omega) f3 f2 i (by omega) hf2]
      simpa using h2
    | cons l rest =>
      obtain ⟨f', rfl⟩ : ∃ f', f = f' + 1 := ⟨f - 1, by omega⟩
      obtain ⟨f3', rfl⟩ : ∃ f3', f3 = f3' + 1 := ⟨f3 - 1, by omega⟩
      simp only [parseLoopF] at h
      simp only [List.cons_append, parseLoopF]
      rcases hm : matchQStart l with _ | first
      · try rw [hm] at h
        simp only [] at h ⊢
        rcases hr : parseLoopF f' rest (i + 1) with e | ⟨qs0, d0⟩
        · rw [hr] at h
          exact absurd h (by simp [Except.map])
        · rw [hr] at h
          simp only [Except.map] at h
          injection h with h
          injection h with h1 h2'
          subst h1; subst h2'
          have hrec := ih rest (by simp at hn; omega) f' (i + 1) qs0 d0
            (by simp at hf; omega) hr ext f2 qs2 d2 hf2
            (by
              have : i + 1 + rest.length = i + (l :: rest).length := by simp; omega
              rw [this]
              exact h2)
            f3' (by simp at hf3 ⊢; omega)
          simp only [List.append_eq]
          rw [hrec]
          simp only [Except.map]
          have : d0 + d2 + 1 = d0 + 1 + d2 := by omega
          rw [this]
      · try rw [hm] at h
        simp only [] at h ⊢
        rcases hpb : parseBlock (i + 1) first rest with e | ⟨q', rem, kk⟩
        · try rw [hpb] at h
          simp only [] at h
          exact absurd h (by simp)
        · try rw [hpb] at h
          simp only [] at h
          rcases hr : parseLoopF f' rem (i + 1 + kk) with e | ⟨qs0, d0⟩
          · rw [hr] at h
            exact absurd h (by simp [Except.map])
          · rw [hr] at h
            simp only [Except.map] at h
            injection h with h
            injection h with h1 h2'
            subst h1; subst h2'
            obtain ⟨hsuf, hlen⟩ := parseBlock_drop hpb
            have hpb' := parseBlock_ext ext hpb
            simp only [List.append_eq]
            rw [hpb']
            simp only []
            have hrec := ih rem (by simp at hn; omega) f' (i + 1 + kk) qs0 d0
              (by simp at hf; omega) hr ext f2 qs2 d2 hf2
              (by
                have : i + 1 + kk + rem.length = i + (l :: rest).length := by
                  simp
                  omega
                rw [this]
                exact h2)
              f3' (by simp at hf3 ⊢; omega)
            rw [hrec]
            simp [Except.map]


/-! ### Top-level parse lemmas -/

theorem parse_questions_post {lines : List Line} {qs : List Question} {d : Nat}
    (h : parse_questions lines = .ok (qs, d)) : ∀ q ∈ qs, QPost lines q :=
  parseLoopF_post _ _ _ _ _ h

/-- Inserting a blank line between two well-formed inputs: the blank line is
scanned in seek-start state and counted as discarded. -/
theorem parse_questions_insert_blank {L1 L2 : List Line} {qs1 qs2 : List Question}
    {d1 d2 : Nat} {b : Line} (hb : isBlank b = true)
    (h1 : parse_questions L1 = .ok (qs1, d1)) (h2 : parse_questions L2 = .ok (qs2, d2)) :
    ∃ qs, parse_questions (L1 ++ b :: L2) = .ok (qs, d1 + d2 + 1) ∧
      qs.length = qs1.length + qs2.length := by
  obtain ⟨qs2', hsh, hlen2⟩ := parseLoopF_shift _ _ _ _ _ h2 (L1.length + 1)
  have hstep : parseLoopF (L2.length + 2) (b :: L2) (0 + L1.length) = .ok (qs2', d2 + 1) := by
    have : parseLoopF (L2.length + 2) (b :: L2) (0 + L1.length) =
        (parseLoopF (L2.length + 1) L2 (0 + L1.length + 1)).map fun p => (p.1, p.2 + 1) := by
      simp only [parseLoopF, matchQStart_eq_none_of_isBlank hb]
    rw [this]
    have he : 0 + L1.length + 1 = L1.length + 1 := by omega
    rw [he, hsh]
    rfl
  have happ := parseLoopF_append L1.length L1 (by omega) (L1.length + 1) 0 qs1 d1
    (by omega) h1 (b :: L2) (L2.length + 2) qs2' (d2 + 1) (by simp) hstep
    (L1.length + L2.length + 2) (by simp; omega)
  refine ⟨qs1 ++ qs2', ?_, by simp [hlen2]⟩
  unfold parse_questions
  have hfe : parseLoopF ((L1 ++ b :: L2).length + 1) (L1 ++ b :: L2) 0 =
      parseLoopF (L1.length + L2.length + 2) (L1 ++ b :: L2) 0 :=
    parseLoopF_fuel_irrel (L1 ++ b :: L2).length _ (by omega) _ _ 0 (by omega) (by simp; omega)
  rw [hfe, happ]
  have : d1 + (d2 + 1) = d1 + d2 + 1 := by omega
  rw [this]

/-! ### Joining and splitting rendered lines -/

theorem joinLines_nil : joinLines [] = [] := rfl

theorem joinLines_single (x : Line) : joinLines [x] = x := by
  simp [joinLines, List.intercalate]

theorem joinLines_cons_cons (x y : Line) (rest : List Line) :
    joinLines (x :: y :: rest) = x ++ '\n' :: joinLines (y :: rest) := by
  simp [joinLines, List.intercalate, List.intersperse]

theorem splitLinesAux_no_nl :
    ∀ (x : Line) (cur : Line), ('\n' ∉ x) →
      splitLinesAux cur x = if (cur ++ x) = [] then [] else [cur ++ x] := by
  intro x
  induction x with
  | nil => intro cur _; simp [splitLinesAux]
  | cons c t ih =>
    intro cur hnl
    have hc : c ≠ '\n' := fun hh => hnl (by simp [hh])
    have ht : '\n' ∉ t := fun hh => hnl (List.mem_cons_of_mem _ hh)
    simp only [splitLinesAux, if_neg hc]
    rw [ih (cur ++ [c]) ht]
    simp

theorem splitLinesAux_line :
    ∀ (x : Line) (cur : Line) (rest : List Char), ('\n' ∉ x) →
      splitLinesAux cur (x ++ '\n' :: rest) = (cur ++ x) :: splitLinesAux [] rest := by
  intro x
  induction x with
  | nil => intro cur rest _; simp [splitLinesAux]
  | cons c t ih =>
    intro cur rest hnl
    have hc : c ≠ '\n' := fun hh => hnl (by simp [hh])
    have ht : '\n' ∉ t := fun hh => hnl (List.mem_cons_of_mem _ hh)
    simp only [List.cons_append, splitLinesAux, if_neg hc, List.append_eq]
    rw [ih (cur ++ [c]) rest ht]
    simp

theorem splitLines_joinLines :
    ∀ (out : List Line), (∀ l ∈ out, '\n' ∉ l) →
      splitLines (joinLines out) =
        if out.getLast? = some [] then out.dropLast else out := by
  intro out
  induction out with
  | nil => intro _; simp [splitLines, splitLinesAux, joinLines_nil]
  | cons x rest ih =>
    intro hnl
    cases rest with
    | nil =>
      rw [joinLines_single]
      unfold splitLines
      rw [splitLinesAux_no_nl x [] (hnl x (List.mem_cons_self _ _))]
      rcases hx : x with _ | ⟨c, t⟩
      · simp
      · simp
    | cons y rest2 =>
      rw [joinLines_cons_cons]
      unfold splitLines
      rw [splitLinesAux_line x [] (joinLines (y :: rest2)) (hnl x (List.mem_cons_self _ _))]
      have ihy := ih (fun l hl => hnl l (List.mem_cons_of_mem _ hl))
      unfold splitLines at ihy
      rw [List.nil_append, ihy]
      have hgl : (x :: y :: rest2).getLast? = (y :: rest2).getLast? := by
        rw [List.getLast?_cons_cons]
      rw [hgl]
      by_cases hc : (y :: rest2).getLast? = some ([] : Line)
      · rw [if_pos hc, if_pos hc]
        rfl
      · rw [if_neg hc, if_neg hc]

/-! ### Soundness of the shuffle step (no well-formedness assumptions) -/

theorem shuffleOne_sound {g : Rng} {q : Question} {s : ShuffledQuestion} {g' : Rng}
    (h : shuffleOne g q = (some s, g')) :
    s.stem_lines = q.stem_lines ∧
    List.Perm s.shuffled_choices (q.choices.map Prod.snd) ∧
    s.new_answer_letter ∈ abcd ∧
    s.shuffled_choices.length = q.choices.length := by
  unfold shuffleOne at h
  simp only [] at h
  split at h
  · injection h with h1 h2
    exact absurd h1 (by simp)
  · split at h
    · injection h with h1 h2
      exact absurd h1 (by simp)
    · split at h
      · injection h with h1 h2
        exact absurd h1 (by simp)
      · rename_i cc hcc idx hidx L hL
        injection h with h1 h2
        injection h1 with h1
        subst h1
        have hperm : List.Perm (listShuffle g q.choices).1 q.choices := listShuffle_perm _ _
        refine ⟨rfl, hperm.map Prod.snd, List.getElem?_mem hL, ?_⟩
        simp [hperm.length_eq]

theorem shuffle_questions_sound :
    ∀ (qs : List Question) (g : Rng) (shs : List ShuffledQuestion) (g' : Rng),
      shuffle_questions qs g = (some shs, g') →
      List.Forall₂ (fun q s => s.stem_lines = q.stem_lines ∧
        List.Perm s.shuffled_choices (q.choices.map Prod.snd) ∧
        s.new_answer_letter ∈ abcd ∧
        s.shuffled_choices.length = q.choices.length) qs shs := by
  intro qs
  induction qs with
  | nil =>
    intro g shs g' h
    simp only [shuffle_questions] at h
    injection h with h1 h2
    injection h1 with h1
    subst h1
    exact List.Forall₂.nil
  | cons q rest ih =>
    intro g shs g' h
    simp only [shuffle_questions] at h
    rcases ho : shuffleOne g q with ⟨o, g1⟩
    rw [ho] at h
    cases o with
    | none =>
      simp only [] at h
      injection h with h1 h2
      exact absurd h1 (by simp)
    | some s =>
      simp only [] at h
      rcases hrest : shuffle_questions rest g1 with ⟨o2, g2⟩
      rw [hrest] at h
      cases o2 with
      | none =>
        simp only [] at h
        injection h with h1 h2
        exact absurd h1 (by simp)
      | some ss =>
        simp only [] at h
        injection h with h1 h2
        injection h1 with h1
        subst h1
        exact List.Forall₂.cons (shuffleOne_sound ho) (ih g1 ss g2 hrest)

/-! ### From parser postconditions to render invariants -/

theorem clean_of_suffix {l l' : Line} (h : l.IsSuffix l') (hc : Clean l') : Clean l :=
  fun c hc2 => hc c (h.subset hc2)

theorem WFQ_choices_length {q : Question} (h : WFQ q) : q.choices.length = 4 := by
  have := h.1.length_eq
  simpa using this

theorem SInv_of_QPost {lines : List Line} {q : Question} {s : ShuffledQuestion}
    (hclean : ∀ l ∈ lines, Clean l) (hq : QPost lines q)
    (hrel : s.stem_lines = q.stem_lines ∧
      List.Perm s.shuffled_choices (q.choices.map Prod.snd) ∧
      s.new_answer_letter ∈ abcd ∧
      s.shuffled_choices.length = q.choices.length) : SInv s := by
  obtain ⟨hwfq, ⟨hd, tl, hst, hany, htl⟩, hsuf, hch⟩ := hq
  obtain ⟨hstem, hperm, hmem, hlen⟩ := hrel
  have hcl : ∀ sl ∈ q.stem_lines, Clean sl := by
    intro sl hsl
    obtain ⟨l', hl', hs⟩ := hsuf sl hsl
    exact clean_of_suffix hs (hclean l' hl')
  refine ⟨⟨hd, tl, by rw [hstem, hst], hany, ?_, ?_⟩, ?_, ?_, hmem⟩
  · exact hcl hd (by rw [hst]; exact List.mem_cons_self _ _)
  · intro l hl
    obtain ⟨hmc, hmq⟩ := htl l hl
    exact ⟨hmc, hmq, hcl l (by rw [hst]; exact List.mem_cons_of_mem _ hl)⟩
  · rw [hlen]
    exact WFQ_choices_length hwfq
  · intro t ht
    have ht2 : t ∈ q.choices.map Prod.snd := hperm.subset ht
    obtain ⟨p, hp, hpe⟩ := List.mem_map.mp ht2
    obtain ⟨hws, l', hl', hs⟩ := hch p hp
    subst hpe
    exact ⟨hws, clean_of_suffix hs (hclean l' hl')⟩

/-! ### Rendered lines contain no newline -/

theorem not_nl_of_clean {l : Line} (h : Clean l) : '\n' ∉ l := by
  intro hmem
  exact h '\n' hmem (by decide)

theorem not_nl_headerLine {n : Nat} {s : ShuffledQuestion} (hc : Clean s.stem_lines.headI) :
    '\n' ∉ headerLine n s := by
  intro hmem
  unfold headerLine at hmem
  rcases List.mem_append.mp hmem with hm | hm
  · have := natToLine_all_digits n '\n' hm
    simp at this
  · rcases List.mem_cons.mp hm with he | hm2
    · simp at he
    · rcases List.mem_cons.mp hm2 with he | hm3
      · simp at he
      · exact not_nl_of_clean hc hm3

theorem not_nl_choiceLine {c : Char} {t : Line} (hc : c ∈ abcd) (ht : Clean t) :
    '\n' ∉ c :: '.' :: ' ' :: t := by
  intro hmem
  rcases List.mem_cons.mp hmem with he | hm
  · rw [← he] at hc
    simp [abcd] at hc
  · rcases List.mem_cons.mp hm with he | hm2
    · simp at he
    · rcases List.mem_cons.mp hm2 with he | hm3
      · simp at he
      · exact not_nl_of_clean ht hm3

theorem not_nl_answerLine {s : ShuffledQuestion} (hc : s.new_answer_letter ∈ abcd) :
    '\n' ∉ answerLine s := by
  intro hmem
  unfold answerLine at hmem
  rcases List.mem_append.mp hmem with hm | hm
  · simp at hm
  · simp at hm
    rw [← hm] at hc
    simp [abcd] at hc

theorem not_nl_blockOut {n : Nat} {s : ShuffledQuestion} (hs : SInv s) :
    ∀ l ∈ blockOut n s, '\n' ∉ l := by
  obtain ⟨⟨hd, tl, hst, _, hcl, htl⟩, hlen, hch, hmem⟩ := hs
  intro l hl
  unfold blockOut at hl
  rcases List.mem_cons.mp hl with rfl | hl2
  · refine not_nl_headerLine ?_
    rw [hst]
    simpa using hcl
  · rcases List.mem_append.mp hl2 with hl3 | hl3
    · rcases List.mem_append.mp hl3 with hl4 | hl4
      · have : l ∈ tl := by
          rw [hst] at hl4
          simpa using hl4
        exact not_nl_of_clean (htl l this).2.2
      · unfold choiceLines at hl4
        obtain ⟨⟨c, t⟩, hp, hpe⟩ := List.mem_map.mp hl4
        have hcm : c ∈ abcd := List.of_mem_zip hp |>.1
        have htm : t ∈ s.shuffled_choices := (List.of_mem_zip hp).2
        rw [← hpe]
        exact not_nl_choiceLine hcm ((hch t htm).2)
    · rcases List.mem_cons.mp hl3 with rfl | hl4
      · simp
      · rcases List.mem_cons.mp hl4 with rfl | hl5
        · exact not_nl_answerLine hmem
        · rcases List.mem_cons.mp hl5 with rfl | hl6
          · simp
          · simp at hl6

theorem not_nl_combinedOut :
    ∀ (shs : List ShuffledQuestion) (n : Nat), (∀ s ∈ shs, SInv s) →
      ∀ l ∈ combinedOut n shs, '\n' ∉ l := by
  intro shs
  induction shs with
  | nil => intro n _ l hl; simp [combinedOut] at hl
  | cons s rest ih =>
    intro n hs l hl
    simp only [combinedOut] at hl
    rcases List.mem_append.mp hl with hm | hm
    · exact not_nl_blockOut (hs s (List.mem_cons_self _ _)) l hm
    · exact ih (n + 1) (fun x hx => hs x (List.mem_cons_of_mem _ hx)) l hm

/-! ### Re-parsing a rendered block -/

theorem collectChoices_full {sLn : Nat} {acc : List (Char × Line)} (h : acc.length = 4) :
    ∀ R : List Line, collectChoices sLn acc R = .ok (acc, R, 0) := by
  intro R
  cases R with
  | nil => rfl
  | cons r R' =>
    simp only [collectChoices]
    rw [if_pos (by omega)]

theorem collectChoices_render4 {sLn : Nat} {t1 t2 t3 t4 : Line} {R : List Line}
    (h1 : dropWs t1 = t1) (h2 : dropWs t2 = t2) (h3 : dropWs t3 = t3) (h4 : dropWs t4 = t4) :
    collectChoices sLn []
      (('A' :: '.' :: ' ' :: t1) :: ('B' :: '.' :: ' ' :: t2) :: ('C' :: '.' :: ' ' :: t3) ::
        ('D' :: '.' :: ' ' :: t4) :: R) =
      .ok ([('A', t1), ('B', t2), ('C', t3), ('D', t4)], R, 4) := by
  have m1 := matchChoice_render (show ('A' : Char) ∈ abcd by decide) h1
  have m2 := matchChoice_render (show ('B' : Char) ∈ abcd by decide) h2
  have m3 := matchChoice_render (show ('C' : Char) ∈ abcd by decide) h3
  have m4 := matchChoice_render (show ('D' : Char) ∈ abcd by decide) h4
  have b1 : isBlank ('A' :: '.' :: ' ' :: t1) = false := isBlank_cons_of_not_ws (by decide)
  have b2 : isBlank ('B' :: '.' :: ' ' :: t2) = false := isBlank_cons_of_not_ws (by decide)
  have b3 : isBlank ('C' :: '.' :: ' ' :: t3) = false := isBlank_cons_of_not_ws (by decide)
  have b4 : isBlank ('D' :: '.' :: ' ' :: t4) = false := isBlank_cons_of_not_ws (by decide)
  have step4 : collectChoices sLn [('A', t1), ('B', t2), ('C', t3)]
      (('D' :: '.' :: ' ' :: t4) :: R) =
      .ok ([('A', t1), ('B', t2), ('C', t3), ('D', t4)], R, 1) := by
    rw [collectChoices]
    rw [if_neg (show ¬(4 ≤ List.length [('A', t1), ('B', t2), ('C', t3)]) by simp)]
    simp only [b4, Bool.false_eq_true, if_false, m4]
    rw [if_neg (show ('D' : Char) ∉ List.map Prod.fst [('A', t1), ('B', t2), ('C', t3)] by
      simp only [List.map_cons, List.map_nil]
      decide)]
    rw [show ([('A', t1), ('B', t2), ('C', t3)] ++ [('D', t4)] : List (Char × Line)) =
      [('A', t1), ('B', t2), ('C', t3), ('D', t4)] from rfl]
    rw [collectChoices_full
      (show ([('A', t1), ('B', t2), ('C', t3), ('D', t4)] : List (Char × Line)).length = 4
        from rfl) R]
    rfl
  have step3 : collectChoices sLn [('A', t1), ('B', t2)]
      (('C' :: '.' :: ' ' :: t3) :: ('D' :: '.' :: ' ' :: t4) :: R) =
      .ok ([('A', t1), ('B', t2), ('C', t3), ('D', t4)], R, 2) := by
    rw [collectChoices]
    rw [if_neg (show ¬(4 ≤ List.length [('A', t1), ('B', t2)]) by simp)]
    simp only [b3, Bool.false_eq_true, if_false, m3]
    rw [if_neg (show ('C' : Char) ∉ List.map Prod.fst [('A', t1), ('B', t2)] by
      simp only [List.map_cons, List.map_nil]
      decide)]
    rw [show ([('A', t1), ('B', t2)] ++ [('C', t3)] : List (Char × Line)) =
      [('A', t1), ('B', t2), ('C', t3)] from rfl]
    rw [step4]
    rfl
  have step2 : collectChoices sLn [('A', t1)]
      (('B' :: '.' :: ' ' :: t2) :: ('C' :: '.' :: ' ' :: t3) :: ('D' :: '.' :: ' ' :: t4) :: R) =
      .ok ([('A', t1), ('B', t2), ('C', t3), ('D', t4)], R, 3) := by
    rw [collectChoices]
    rw [if_neg (show ¬(4 ≤ List.length [('A', t1)]) by simp)]
    simp only [b2, Bool.false_eq_true, if_false, m2]
    rw [if_neg (show ('B' : Char) ∉ List.map Prod.fst [('A', t1)] by
      simp only [List.map_cons, List.map_nil]
      decide)]
    rw [show ([('A', t1)] ++ [('B', t2)] : List (Char × Line)) = [('A', t1), ('B', t2)] from rfl]
    rw [step3]
    rfl
  rw [collectChoices]
  rw [if_neg (show ¬(4 ≤ List.length ([] : List (Char × Line))) by simp)]
  simp only [b1, Bool.false_eq_true, if_false, m1]
  rw [if_neg (show ('A' : Char) ∉ List.map Prod.fst ([] : List (Char × Line)) by simp)]
  rw [show (([] : List (Char × Line)) ++ [('A', t1)]) = [('A', t1)] from rfl]
  rw [step2]
  rfl

theorem parseBlock_render {i : Nat} {s : ShuffledQuestion} {R : List Line} (hs : SInv s) :
    parseBlock (i + 1) (dropWs s.stem_lines.headI)
        ((s.stem_lines.tail ++ choiceLines s ++ [[], answerLine s]) ++ R) =
      .ok (⟨dropWs s.stem_lines.headI :: s.stem_lines.tail,
            abcd.zip s.shuffled_choices, s.new_answer_letter, i + 1⟩,
        R, s.stem_lines.tail.length + 6) := by
  obtain ⟨⟨hd, tl, hst, hany, hclh, htl⟩, hlen, hch, hmem⟩ := hs
  have hheadI : s.stem_lines.headI = hd := by rw [hst]; rfl
  have htail : s.stem_lines.tail = tl := by rw [hst]; rfl
  obtain ⟨t1, t2, t3, t4, hsc⟩ : ∃ t1 t2 t3 t4, s.shuffled_choices = [t1, t2, t3, t4] := by
    rcases hx : s.shuffled_choices with _ | ⟨a, _ | ⟨b, _ | ⟨c, _ | ⟨d, _ | e⟩⟩⟩⟩ <;>
      rw [hx] at hlen <;> simp at hlen
    exact ⟨a, b, c, d, rfl⟩
  have hcl : choiceLines s =
      [('A' :: '.' :: ' ' :: t1), ('B' :: '.' :: ' ' :: t2),
       ('C' :: '.' :: ' ' :: t3), ('D' :: '.' :: ' ' :: t4)] := by
    rw [choiceLines, hsc]
    rfl
  have hd1 : dropWs t1 = t1 := (hch t1 (by rw [hsc]; simp)).1
  have hd2 : dropWs t2 = t2 := (hch t2 (by rw [hsc]; simp)).1
  have hd3 : dropWs t3 = t3 := (hch t3 (by rw [hsc]; simp)).1
  have hd4 : dropWs t4 = t4 := (hch t4 (by rw [hsc]; simp)).1
  have hfne : dropWs s.stem_lines.headI ≠ [] := by
    rw [hheadI]
    exact dropWs_ne_nil_of_any hany
  have hmid : ∀ l ∈ tl, matchChoice l = none ∧ matchQStart l = none :=
    fun l hl => ⟨(htl l hl).1, (htl l hl).2.1⟩
  have hA : (matchChoice ('A' :: '.' :: ' ' :: t1)).isSome = true := by
    rw [matchChoice_render (show ('A' : Char) ∈ abcd by decide) hd1]
    rfl
  have hshape : (s.stem_lines.tail ++ choiceLines s ++ [[], answerLine s]) ++ R =
      tl ++ ('A' :: '.' :: ' ' :: t1) :: (('B' :: '.' :: ' ' :: t2) ::
        ('C' :: '.' :: ' ' :: t3) :: ('D' :: '.' :: ' ' :: t4) ::
        [] :: answerLine s :: R) := by
    rw [htail, hcl]
    simp
  have h1 : collectStem (i + 1) [dropWs s.stem_lines.headI]
      ((s.stem_lines.tail ++ choiceLines s ++ [[], answerLine s]) ++ R) =
      .ok ([dropWs s.stem_lines.headI] ++ tl,
        ('A' :: '.' :: ' ' :: t1) :: (('B' :: '.' :: ' ' :: t2) ::
          ('C' :: '.' :: ' ' :: t3) :: ('D' :: '.' :: ' ' :: t4) ::
          [] :: answerLine s :: R), tl.length) := by
    rw [hshape]
    exact collectStem_render tl [dropWs s.stem_lines.headI] _ _ hmid hA
  have h4 : collectChoices (i + 1) []
      (('A' :: '.' :: ' ' :: t1) :: (('B' :: '.' :: ' ' :: t2) ::
        ('C' :: '.' :: ' ' :: t3) :: ('D' :: '.' :: ' ' :: t4) ::
        [] :: answerLine s :: R)) =
      .ok ([('A', t1), ('B', t2), ('C', t3), ('D', t4)], [] :: answerLine s :: R, 4) :=
    collectChoices_render4 hd1 hd2 hd3 hd4
  have hba : isBlank (answerLine s) = false := by
    have he : answerLine s =
        'A' :: (['n', 's', 'w', 'e', 'r', ':', ' '] ++ [s.new_answer_letter]) := rfl
    rw [he]
    exact isBlank_cons_of_not_ws (by decide)
  have h6 : skipBlanks ([] :: answerLine s :: R) = (answerLine s :: R, 1) := by
    have hsa : skipBlanks (answerLine s :: R) = (answerLine s :: R, 0) := by
      rw [skipBlanks, if_neg (show ¬isBlank (answerLine s) = true by rw [hba]; simp)]
    rw [skipBlanks, if_pos (show isBlank ([] : Line) = true from rfl), hsa]
  have h7 := matchAnswer_render s.new_answer_letter hmem
  have hb := parseBlock_build'
    (if_neg hfne)
    (show (if dropWs s.stem_lines.headI = [] then
        skipBlanks ((s.stem_lines.tail ++ choiceLines s ++ [[], answerLine s]) ++ R)
      else ((s.stem_lines.tail ++ choiceLines s ++ [[], answerLine s]) ++ R, 0)) =
      ((s.stem_lines.tail ++ choiceLines s ++ [[], answerLine s]) ++ R, 0)
      from if_neg hfne) h1 (by simp) (by simp) h4
    (show letterSetOk (List.map Prod.fst [('A', t1), ('B', t2), ('C', t3), ('D', t4)]) = true by
      rw [show List.map Prod.fst [('A', t1), ('B', t2), ('C', t3), ('D', t4)] =
        ['A', 'B', 'C', 'D'] from rfl]
      decide)
    (show (skipBlanks ([] :: answerLine s :: R)).1 = answerLine s :: R by rw [h6])
    h7.1
  rw [hb, h6, h7.2]
  simp [htail, hsc, abcd]

theorem matchQStart_headerLine {n : Nat} {s : ShuffledQuestion} :
    matchQStart (headerLine n s) = some (dropWs s.stem_lines.headI) := by
  unfold headerLine
  exact matchQStart_render (natToLine_ne_nil n) (natToLine_all_digits n)

theorem parseLoopF_nil (f i : Nat) : parseLoopF f [] i = .ok ([], 0) := by
  cases f <;> rfl

theorem blockOut_eq (n : Nat) (s : ShuffledQuestion) :
    blockOut n s = blockCore n s ++ [[]] := by
  simp [blockOut, blockCore]

theorem choiceLines_length {s : ShuffledQuestion} (h : s.shuffled_choices.length = 4) :
    (choiceLines s).length = 4 := by
  simp [choiceLines, List.length_zip, h, abcd]

theorem parseLoopF_render_step {fu i nn : Nat} {s : ShuffledQuestion} {R : List Line}
    (hs : SInv s) :
    parseLoopF (fu + 1) (blockCore nn s ++ R) i =
      (parseLoopF fu R (i + 1 + (s.stem_lines.tail.length + 6))).map
        (fun p => (reparsedQ (i + 1) s :: p.1, p.2)) := by
  have hbc : blockCore nn s ++ R =
      headerLine nn s :: ((s.stem_lines.tail ++ choiceLines s ++ [[], answerLine s]) ++ R) := by
    simp [blockCore]
  rw [hbc]
  rw [parseLoopF]
  rw [matchQStart_headerLine]
  simp only []
  rw [parseBlock_render hs]
  rfl

theorem combinedOut_cons_ne_nil (n : Nat) (s : ShuffledQuestion)
    (rest : List ShuffledQuestion) : combinedOut n (s :: rest) ≠ [] := by
  simp [combinedOut, blockOut]

theorem reparse_combined :
    ∀ (shs : List ShuffledQuestion), shs ≠ [] → (∀ s ∈ shs, SInv s) →
      ∀ (nn fu i : Nat), (combinedOut nn shs).length ≤ fu →
        ∃ qs, parseLoopF fu ((combinedOut nn shs).dropLast) i = .ok (qs, shs.length - 1) ∧
          List.Forall₂ (fun s q =>
            q.stem_lines = dropWs s.stem_lines.headI :: s.stem_lines.tail ∧
            q.choices = abcd.zip s.shuffled_choices ∧
            q.answer_letter = s.new_answer_letter) shs qs := by
  intro shs
  induction shs with
  | nil => intro h; exact absurd rfl h
  | cons s rest ih =>
    intro _ hsinv nn fu i hfu
    have hs : SInv s := hsinv s (List.mem_cons_self _ _)
    have hbo : (blockOut nn s).length = s.stem_lines.tail.length + 8 := by
      have h4 : (choiceLines s).length = 4 := choiceLines_length hs.2.1
      simp [blockOut, h4]
    cases rest with
    | nil =>
      have hco : combinedOut nn [s] = blockCore nn s ++ [[]] := by
        simp only [combinedOut, List.append_nil]
        exact blockOut_eq nn s
      have hdl : (combinedOut nn [s]).dropLast = blockCore nn s := by
        rw [hco]
        exact List.dropLast_concat
      obtain ⟨fu', rfl⟩ : ∃ fu', fu = fu' + 1 := by
        refine ⟨fu - 1, ?_⟩
        have : (combinedOut nn [s]).length ≥ 1 := by
          rw [hco]
          simp
        omega
      rw [hdl]
      have hstep : parseLoopF (fu' + 1) (blockCore nn s ++ []) i =
          (parseLoopF fu' [] (i + 1 + (s.stem_lines.tail.length + 6))).map
            (fun p => (reparsedQ (i + 1) s :: p.1, p.2)) := parseLoopF_render_step hs
      rw [List.append_nil] at hstep
      rw [hstep, parseLoopF_nil]
      exact ⟨[reparsedQ (i + 1) s], rfl, List.Forall₂.cons ⟨rfl, rfl, rfl⟩ List.Forall₂.nil⟩
    | cons s' rest' =>
      have hcne : combinedOut (nn + 1) (s' :: rest') ≠ [] := combinedOut_cons_ne_nil _ _ _
      have hco : combinedOut nn (s :: s' :: rest') =
          blockOut nn s ++ combinedOut (nn + 1) (s' :: rest') := rfl
      have hdl : (combinedOut nn (s :: s' :: rest')).dropLast =
          blockCore nn s ++ ([] :: (combinedOut (nn + 1) (s' :: rest')).dropLast) := by
        rw [hco, List.dropLast_append_of_ne_nil _ hcne, blockOut_eq]
        simp
      obtain ⟨fu1, rfl⟩ : ∃ fu1, fu = fu1 + 1 := by
        refine ⟨fu - 1, ?_⟩
        have h1 : (combinedOut nn (s :: s' :: rest')).length ≥ 1 := by
          rw [hco, List.length_append, hbo]
          omega
        omega
      obtain ⟨fu2, rfl⟩ : ∃ fu2, fu1 = fu2 + 1 := by
        refine ⟨fu1 - 1, ?_⟩
        have h1 : (combinedOut nn (s :: s' :: rest')).length ≥ 2 := by
          rw [hco, List.length_append, hbo]
          omega
        rw [hco, List.length_append] at hfu
        omega
      rw [hdl]
      rw [parseLoopF_render_step hs]
      have hblank : parseLoopF (fu2 + 1)
          ([] :: (combinedOut (nn + 1) (s' :: rest')).dropLast)
          (i + 1 + (s.stem_lines.tail.length + 6)) =
          (parseLoopF fu2 ((combinedOut (nn + 1) (s' :: rest')).dropLast)
            (i + 1 + (s.stem_lines.tail.length + 6) + 1)).map
            (fun p => (p.1, p.2 + 1)) := by
        rw [parseLoopF]
        rw [matchQStart_eq_none_of_isBlank (show isBlank ([] : Line) = true from rfl)]
      rw [hblank]
      have hflen : (combinedOut (nn + 1) (s' :: rest')).length ≤ fu2 := by
        rw [hco, List.length_append, hbo] at hfu
        have hdll := List.length_dropLast (combinedOut (nn + 1) (s' :: rest'))
        omega
      obtain ⟨qs', hqs', hf2⟩ := ih (by simp) (fun x hx => hsinv x (List.mem_cons_of_mem _ hx))
        (nn + 1) fu2 (i + 1 + (s.stem_lines.tail.length + 6) + 1)
        (by
          have := List.length_dropLast (combinedOut (nn + 1) (s' :: rest'))
          omega)
      rw [hqs']
      refine ⟨reparsedQ (i + 1) s :: qs', ?_, List.Forall₂.cons ⟨rfl, rfl, rfl⟩ hf2⟩
      simp only [Except.map]
      have : (s' :: rest').length - 1 + 1 = (s :: s' :: rest').length - 1 := by
        simp
      rw [this]

/-! ### Composition helpers for the round-trip theorem -/

theorem forall2_mem_right {α β : Type _} {R : α → β → Prop} :
    ∀ {l1 : List α} {l2 : List β}, List.Forall₂ R l1 l2 → ∀ b ∈ l2, ∃ a ∈ l1, R a b := by
  intro l1 l2 h
  induction h with
  | nil => intro b hb; simp at hb
  | cons hr _ ih =>
    intro b hb
    rcases List.mem_cons.mp hb with rfl | hb2
    · exact ⟨_, List.mem_cons_self _ _, hr⟩
    · obtain ⟨a, ha, har⟩ := ih b hb2
      exact ⟨a, List.mem_cons_of_mem _ ha, har⟩

theorem forall2_compose {α β γ : Type _} {R : α → β → Prop} {S : β → γ → Prop}
    {T : α → γ → Prop} (h : ∀ a b c, R a b → S b c → T a c) :
    ∀ {l1 : List α} {l2 : List β} {l3 : List γ},
      List.Forall₂ R l1 l2 → List.Forall₂ S l2 l3 → List.Forall₂ T l1 l3 := by
  intro l1 l2 l3 h12
  induction h12 generalizing l3 with
  | nil =>
    intro h23
    cases h23
    exact List.Forall₂.nil
  | cons hr _ ih =>
    intro h23
    cases h23 with
    | cons hs h23' => exact List.Forall₂.cons (h _ _ _ hr hs) (ih h23')

theorem forall2_and_left {α β : Type _} {R : α → β → Prop} {P : α → Prop} :
    ∀ {l1 : List α} {l2 : List β}, List.Forall₂ R l1 l2 → (∀ a ∈ l1, P a) →
      List.Forall₂ (fun a b => R a b ∧ P a) l1 l2 := by
  intro l1 l2 h
  induction h with
  | nil => intro _; exact List.Forall₂.nil
  | cons hr _ ih =>
    intro hp
    exact List.Forall₂.cons ⟨hr, hp _ (List.mem_cons_self _ _)⟩
      (ih fun a ha => hp a (List.mem_cons_of_mem _ ha))

theorem combinedOut_getLast :
    ∀ (shs : List ShuffledQuestion) (n : Nat), shs ≠ [] →
      (combinedOut n shs).getLast? = some [] := by
  intro shs
  induction shs with
  | nil => intro n h; exact absurd rfl h
  | cons s rest ih =>
    intro n _
    cases rest with
    | nil =>
      have : combinedOut n [s] = blockCore n s ++ [[]] := by
        simp only [combinedOut, List.append_nil]
        exact blockOut_eq n s
      rw [this, List.getLast?_concat]
    | cons s' rest' =>
      have hco : combinedOut n (s :: s' :: rest') =
          blockOut n s ++ combinedOut (n + 1) (s' :: rest') := rfl
      rw [hco, List.getLast?_append, ih (n + 1) (by simp)]
      rfl

/-! ### The answers-only output, spec side -/

theorem answersOut_spec :
    ∀ (qs : List ShuffledQuestion) (n : Nat),
      answersOut n qs = ((List.range qs.length).zip qs).map fun p =>
        natToLine (p.1 + n) ++ '.' :: ' ' :: [p.2.new_answer_letter] := by
  intro qs
  induction qs with
  | nil => intro n; rfl
  | cons s rest ih =>
    intro n
    simp only [answersOut, List.length_cons]
    rw [List.range_succ_eq_map, List.zip_cons_cons, List.map_cons, ih (n + 1),
      List.zip_map_left, List.map_map]
    refine congrArg₂ _ (by rw [Nat.zero_add]) ?_
    refine List.map_congr_left fun p _ => ?_
    show natToLine (p.1 + (n + 1)) ++ _ = natToLine ((Prod.map Nat.succ id p).1 + n) ++ _
    have h1 : (Prod.map Nat.succ id p).1 + n = p.1 + (n + 1) := by
      rcases p with ⟨a, b⟩
      simp [Prod.map]
      omega
    have h2 : (Prod.map Nat.succ id p).2 = p.2 := by
      rcases p with ⟨a, b⟩
      rfl
    rw [h1, h2]

/-! ### Claim theorems -/

/-- C2 (amended): for clean input lines on which the parser succeeds, rendering
the shuffled questions with `format_combined` and re-parsing the rendered text
succeeds and yields the same number of questions; each re-parsed question keeps
the original stem lines in order except that the first stem line loses its
leading whitespace, and its choice texts are a permutation of the original
question's choice texts. -/
theorem C2_roundtrip_modulo_leading_ws {lines : List Line} {qs : List Question} {d : Nat}
    {g g' : Rng} {shs : List ShuffledQuestion}
    (hclean : ∀ l ∈ lines, Clean l)
    (hp : parse_questions lines = .ok (qs, d))
    (hsh : shuffle_questions qs g = (some shs, g')) :
    ∃ qs2 d2, parse_questions (splitLines (format_combined shs)) = .ok (qs2, d2) ∧
      qs2.length = qs.length ∧
      List.Forall₂ (fun q q2 =>
        q2.stem_lines = dropWs q.stem_lines.headI :: q.stem_lines.tail ∧
        List.Perm (q2.choices.map Prod.snd) (q.choices.map Prod.snd)) qs qs2 := by
  have hpost := parse_questions_post hp
  have hrel := shuffle_questions_sound qs g shs g' hsh
  by_cases hqe : qs = []
  · subst hqe
    simp only [shuffle_questions] at hsh
    injection hsh with h1 h2
    injection h1 with h1
    subst h1
    exact ⟨[], 0, rfl, rfl, List.Forall₂.nil⟩
  · have hlq : qs.length = shs.length := hrel.length_eq
    have hne_shs : shs ≠ [] := by
      intro h
      subst h
      simp at hlq
      exact hqe hlq
    have hsinv : ∀ s ∈ shs, SInv s := by
      intro s hs
      obtain ⟨q, hq, hr⟩ := forall2_mem_right hrel s hs
      exact SInv_of_QPost hclean (hpost q hq) hr
    have hnl := not_nl_combinedOut shs 1 hsinv
    have hsplit : splitLines (format_combined shs) = (combinedOut 1 shs).dropLast := by
      unfold format_combined
      rw [splitLines_joinLines (combinedOut 1 shs) hnl,
        if_pos (combinedOut_getLast shs 1 hne_shs)]
    have hlen1 : 1 ≤ (combinedOut 1 shs).length := by
      obtain ⟨s0, t0, rfl⟩ := List.exists_cons_of_ne_nil hne_shs
      exact List.length_pos.mpr (combinedOut_cons_ne_nil 1 s0 t0)
    obtain ⟨qs2, hpl, hf2⟩ := reparse_combined shs hne_shs hsinv 1
      ((combinedOut 1 shs).dropLast.length + 1) 0
      (by rw [List.length_dropLast]; omega)
    have hparse2 : parse_questions (splitLines (format_combined shs)) =
        .ok (qs2, shs.length - 1) := by
      rw [hsplit]
      unfold parse_questions
      exact hpl
    have hwfq : ∀ q ∈ qs, WFQ q := fun q hq => (hpost q hq).1
    have hrel2 := forall2_and_left hrel hwfq
    refine ⟨qs2, shs.length - 1, hparse2, ?_, ?_⟩
    · have := hf2.length_eq
      omega
    · refine forall2_compose ?_ hrel2 hf2
      intro q s q2 hr hs2
      obtain ⟨⟨hstem, hperm, hmem, hlen⟩, hwf⟩ := hr
      obtain ⟨h2stem, h2ch, h2ans⟩ := hs2
      constructor
      · rw [h2stem, hstem]
      · rw [h2ch]
        have hl4 : s.shuffled_choices.length = 4 := by
          rw [hlen]
          exact WFQ_choices_length hwf
        have hmz : (abcd.zip s.shuffled_choices).map Prod.snd = s.shuffled_choices :=
          List.map_snd_zip abcd s.shuffled_choices (by rw [hl4]; decide)
        rw [hmz]
        exact hperm

/-- C2 witness: the amended round-trip theorem applied to the concrete input
`cx2lines` and the constantly-zero generator. -/
theorem C2_roundtrip_modulo_leading_ws_witness :
    (∀ l ∈ cx2lines, Clean l) ∧
    parse_questions cx2lines = .ok (cx2qs, 0) ∧
    shuffle_questions cx2qs zeroRng = (some cx2shs, cx2rng) ∧
    (∃ qs2 d2, parse_questions (splitLines (format_combined cx2shs)) = .ok (qs2, d2) ∧
      qs2.length = cx2qs.length ∧
      List.Forall₂ (fun q q2 =>
        q2.stem_lines = dropWs q.stem_lines.headI :: q.stem_lines.tail ∧
        List.Perm (q2.choices.map Prod.snd) (q.choices.map Prod.snd)) cx2qs qs2) :=
  ⟨by decide, rfl, rfl,
    @C2_roundtrip_modulo_leading_ws cx2lines cx2qs 0 zeroRng cx2rng cx2shs (by decide) rfl rfl⟩

/-- C2 counterexample: on `cx2lines` the re-parsed questions do not have
stem lines identical to the originals — the first stem line loses its leading
whitespace on the round trip. -/
theorem C2_stem_whitespace_counterexample :
    parse_questions cx2lines = .ok (cx2qs, 0) ∧
    shuffle_questions cx2qs zeroRng = (some cx2shs, cx2rng) ∧
    parse_questions (splitLines (format_combined cx2shs)) = .ok (cx2reQ, 0) ∧
    ¬ (cx2reQ.map Question.stem_lines = cx2qs.map Question.stem_lines) :=
  ⟨rfl, rfl, rfl, by decide⟩

/-- C1: for questions whose four choice letters are exactly A-D and whose
answer letter is among them, `shuffle_questions` succeeds and, for every
question, the choice text at the canonical index of the new answer letter is
the text originally carried by the answer letter: the originally-correct text
is still the one marked correct. -/
theorem C1_answer_preserved {qs : List Question} {g : Rng}
    (hwf : ∀ q ∈ qs, WFQ q) :
    ∃ shs g2, shuffle_questions qs g = (some shs, g2) ∧
      List.Forall₂ (fun q s => ∀ t, (q.answer_letter, t) ∈ q.choices →
        s.shuffled_choices[letterIndex s.new_answer_letter]? = some t) qs shs := by
  obtain ⟨shs, g2, heq, hrel⟩ := shuffle_questions_spec qs g hwf
  exact ⟨shs, g2, heq, List.Forall₂.imp (fun a b hr => hr.2.2.2) hrel⟩

/-- C1 witness: the answer-preservation theorem applied to one concrete
well-formed question and the constantly-zero generator. -/
theorem C1_answer_preserved_witness :
    (∀ q ∈ [cw1], WFQ q) ∧
    (∃ shs g2, shuffle_questions [cw1] zeroRng = (some shs, g2) ∧
      List.Forall₂ (fun q s => ∀ t, (q.answer_letter, t) ∈ q.choices →
        s.shuffled_choices[letterIndex s.new_answer_letter]? = some t) [cw1] shs) := by
  have hw : ∀ q ∈ [cw1], WFQ q := by
    intro q hq
    rw [List.mem_singleton] at hq
    subst hq
    exact ⟨by decide, by decide⟩
  exact ⟨hw, C1_answer_preserved hw⟩

/-- C3: the combined pipeline (parse, shuffle, render) is a deterministic
function of the input lines and the generator state: two generators with the
same position and extensionally equal streams (as produced by seeding with the
same seed) yield identical output. -/
theorem C3_deterministic (lines : List Line) (g1 g2 : Rng)
    (hpos : g1.pos = g2.pos) (hstream : ∀ k, g1.stream k = g2.stream k) :
    process_combined lines g1 = process_combined lines g2 := by
  have hg : g1 = g2 := by
    cases g1
    cases g2
    simp only [Rng.mk.injEq]
    exact ⟨funext hstream, hpos⟩
  rw [hg]

/-- C3 witness: determinism applied to a concrete input and two syntactically
different generators with the same stream values. -/
theorem C3_deterministic_witness :
    ((⟨fun _ => 0, 0⟩ : Rng).pos = (⟨fun k => 0 * k, 0⟩ : Rng).pos) ∧
    (∀ k, (⟨fun _ => 0, 0⟩ : Rng).stream k = (⟨fun k => 0 * k, 0⟩ : Rng).stream k) ∧
    process_combined [ofStr "hello"] ⟨fun _ => 0, 0⟩ =
      process_combined [ofStr "hello"] ⟨fun k => 0 * k, 0⟩ :=
  ⟨rfl, fun k => (Nat.zero_mul k).symm,
    C3_deterministic [ofStr "hello"] ⟨fun _ => 0, 0⟩ ⟨fun k => 0 * k, 0⟩ rfl
      (fun k => (Nat.zero_mul k).symm)⟩

/-- C4 (amended): a blank filler line between two independently parseable
stretches of input IS counted: parsing their concatenation with a blank line
between them yields the questions of both stretches but a discarded count one
larger than the sum of the two discarded counts. -/
theorem C4_blank_between_blocks_discarded {L1 L2 : List Line} {qs1 qs2 : List Question}
    {d1 d2 : Nat} {b : Line} (hb : isBlank b = true)
    (h1 : parse_questions L1 = .ok (qs1, d1)) (h2 : parse_questions L2 = .ok (qs2, d2)) :
    ∃ qs, parse_questions (L1 ++ b :: L2) = .ok (qs, d1 + d2 + 1) ∧
      qs.length = qs1.length + qs2.length :=
  parse_questions_insert_blank hb h1 h2

/-- C4 witness: the amended discard-count theorem applied to two concrete
blocks separated by an empty line. -/
theorem C4_blank_between_blocks_discarded_witness :
    isBlank ([] : Line) = true ∧
    parse_questions cx4a = .ok (cx4aQ, 0) ∧
    parse_questions cx4b = .ok (cx4bQ, 0) ∧
    (∃ qs, parse_questions (cx4a ++ [] :: cx4b) = .ok (qs, 0 + 0 + 1) ∧
      qs.length = cx4aQ.length + cx4bQ.length) :=
  ⟨rfl, rfl, rfl, @C4_blank_between_blocks_discarded cx4a cx4b cx4aQ cx4bQ 0 0 [] rfl rfl rfl⟩

/-- C4 counterexample: both `cx4a` and `cx4b` parse with zero discarded lines,
yet their concatenation with a single blank filler line in between parses with
a discarded count of one — the blank filler line between blocks IS counted as
discarded. -/
theorem C4_blank_counted_counterexample :
    parse_questions cx4a = .ok (cx4aQ, 0) ∧
    parse_questions cx4b = .ok (cx4bQ, 0) ∧
    parse_questions (cx4a ++ [] :: cx4b) = .ok (cx4abQ, 1) ∧
    cx4abQ.length = cx4aQ.length + cx4bQ.length ∧ (1 : Nat) ≠ 0 :=
  ⟨rfl, rfl, rfl, rfl, by decide⟩

/-- C5 (amended): the three-choice input fails with the expected-choice-line
error (the `Answer:` line is reached while still collecting choices),
referencing block start line 1. -/
theorem C5_three_choice_error_cause :
    parse_questions cx5lines = .error ⟨Cause.expectedChoiceLine, 1⟩ := rfl

/-- C5 counterexample: the three-choice input does NOT fail with the
incomplete-letter-set error claimed by the specification; the actual cause is
the expected-choice-line error raised inside the collection loop. -/
theorem C5_error_cause_counterexample :
    parse_questions cx5lines ≠ .error ⟨Cause.incompleteLetterSet, 1⟩ ∧
    Cause.expectedChoiceLine ≠ Cause.incompleteLetterSet := by
  refine ⟨?_, by decide⟩
  intro h
  rw [show parse_questions cx5lines = .error ⟨Cause.expectedChoiceLine, 1⟩ from rfl] at h
  injection h with h2
  exact absurd h2 (by decide)

/-- C6: `shuffle_questions` is total on well-formed questions — the option in
its result is always `some`, with one shuffled question per input question. -/
theorem C6_shuffle_total {qs : List Question} {g : Rng}
    (hwf : ∀ q ∈ qs, WFQ q) :
    ∃ shs g2, shuffle_questions qs g = (some shs, g2) ∧ shs.length = qs.length := by
  obtain ⟨shs, g2, heq, hrel⟩ := shuffle_questions_spec qs g hwf
  exact ⟨shs, g2, heq, hrel.length_eq.symm⟩

/-- C6 witness: totality of the shuffle applied to one concrete well-formed
question and the constantly-zero generator. -/
theorem C6_shuffle_total_witness :
    (∀ q ∈ [cw6], WFQ q) ∧
    (∃ shs g2, shuffle_questions [cw6] zeroRng = (some shs, g2) ∧
      shs.length = [cw6].length) := by
  have hw : ∀ q ∈ [cw6], WFQ q := by
    intro q hq
    rw [List.mem_singleton] at hq
    subst hq
    exact ⟨by decide, by decide⟩
  exact ⟨hw, C6_shuffle_total hw⟩

/-- C7: on empty input the parser succeeds with zero questions and zero
discarded lines, the shuffle returns an empty list leaving the generator
untouched, and the combined rendering is the empty string. -/
theorem C7_empty_input (g : Rng) :
    parse_questions [] = .ok ([], 0) ∧ shuffle_questions [] g = (some [], g) ∧
    format_combined [] = [] :=
  ⟨rfl, rfl, rfl⟩

/-- C8: the answers-only rendering equals its specification: one line
`"{n}. {new_answer_letter}"` per question, numbered from 1 in order, joined by
newlines, with a trailing newline exactly when at least one question exists. -/
theorem C8_answers_only_shape (qs : List ShuffledQuestion) :
    format_answers_only qs = specAnswersOnly qs := by
  cases qs with
  | nil => rfl
  | cons s rest =>
    unfold format_answers_only specAnswersOnly specAnswerList
    rw [answersOut_spec]
    rw [if_neg (by simp [List.range_succ_eq_map]), if_neg (by simp)]

/-- C9: whenever the choice-collection loop returns having collected exactly
four choices, their letters are exactly A, B, C, D; hence the letter-set check
can only fail when the loop stopped with fewer than four choices, which only
happens at end of input. -/
theorem C9_four_collected_full_letter_set {sLn : Nat} {ls : List Line}
    {cs : List (Char × Line)} {rem : List Line} {k : Nat}
    (h : collectChoices sLn [] ls = .ok (cs, rem, k)) :
    (cs.length = 4 →
      List.Perm (cs.map Prod.fst) abcd ∧ letterSetOk (cs.map Prod.fst) = true) ∧
    (letterSetOk (cs.map Prod.fst) = false → cs.length < 4 ∧ rem = []) := by
  have hnd : (cs.map Prod.fst).Nodup :=
    collectChoices_nodup ls [] cs rem k (by simp) h
  obtain ⟨hrem, hk, pre, hcs, hpre⟩ := collectChoices_ok ls [] cs rem k h
  have hsub : ∀ c ∈ cs.map Prod.fst, c ∈ abcd := by
    intro c hc
    rcases List.mem_map.mp hc with ⟨p, hp, hpe⟩
    rw [hcs] at hp
    simp only [List.nil_append] at hp
    obtain ⟨l, _, hml⟩ := hpre p hp
    rcases p with ⟨c0, t0⟩
    obtain ⟨hc0, _, _⟩ := matchChoice_some_spec hml
    subst hpe
    exact hc0
  obtain ⟨hle, hexit⟩ := collectChoices_exit ls [] cs rem k (by simp) h
  constructor
  · intro h4
    have hlso : letterSetOk (cs.map Prod.fst) = true :=
      letterSetOk_of_nodup _ hnd hsub (by simp [h4])
    exact ⟨perm_abcd_of_letterSetOk _ hnd hlso, hlso⟩
  · intro hfalse
    have hne : cs.length ≠ 4 := by
      intro h4
      rw [letterSetOk_of_nodup _ hnd hsub (by simp [h4])] at hfalse
      exact absurd hfalse (by simp)
    exact ⟨by omega, hexit hne⟩

/-- C9 witness: the letter-set theorem applied to a concrete run of the
collection loop that gathers all four choices. -/
theorem C9_four_collected_full_letter_set_witness :
    collectChoices 1 [] cw9ls = .ok (cw9cs, [], 4) ∧
    ((cw9cs.length = 4 →
        List.Perm (cw9cs.map Prod.fst) abcd ∧ letterSetOk (cw9cs.map Prod.fst) = true) ∧
      (letterSetOk (cw9cs.map Prod.fst) = false →
        cw9cs.length < 4 ∧ ([] : List Line) = [])) :=
  ⟨rfl, @C9_four_collected_full_letter_set 1 cw9ls cw9cs [] 4 rfl⟩

/-- C10: every question returned by a successful parse has a non-empty stem
whose first line contains a non-whitespace character — it is neither the empty
line nor whitespace-only, so the rendered header never shows a bare number. -/
theorem C10_stem_head_nonblank {lines : List Line} {qs : List Question} {d : Nat}
    (h : parse_questions lines = .ok (qs, d)) :
    ∀ q ∈ qs, q.stem_lines ≠ [] ∧
      q.stem_lines.headI.any (fun c => !isPySpace c) = true ∧
      q.stem_lines.headI ≠ [] ∧ isBlank q.stem_lines.headI = false := by
  intro q hq
  obtain ⟨_, ⟨hd, t, hst, hany, _⟩, _, _⟩ := parse_questions_post h q hq
  have hhead : q.stem_lines.headI = hd := by rw [hst]; rfl
  refine ⟨by rw [hst]; simp, by rw [hhead]; exact hany, ?_, ?_⟩
  · rw [hhead]
    intro hnil
    rw [hnil] at hany
    simp at hany
  · rw [hhead]
    rcases List.any_eq_true.mp hany with ⟨c, hc, hcb⟩
    rw [not_isBlank_iff]
    exact ⟨c, hc, by simpa using hcb⟩

/-- C10 witness: the stem-head invariant applied to a concrete parse. -/
theorem C10_stem_head_nonblank_witness :
    parse_questions cx10lines = .ok (cx10Q, 0) ∧
    ∀ q ∈ cx10Q, q.stem_lines ≠ [] ∧
      q.stem_lines.headI.any (fun c => !isPySpace c) = true ∧
      q.stem_lines.headI ≠ [] ∧ isBlank q.stem_lines.headI = false :=
  ⟨rfl, @C10_stem_head_nonblank cx10lines cx10Q 0 rfl⟩
